import Mathlib

/-!
# Backward chainer (opencog/reasoning/RuleEngine/rule-engine-src/pln/BackwardChainer.cc)

A shallow embedding of `BackwardChainer::unify`, `join_premise_vgrounding_maps`,
`filter_rules`, `do_bc`, `do_chain`, `chase_var_values`, `ground_target_vars` and
`get_logical_link_premises_map`, and theorems about them.
-/

namespace BackwardChainer

/-- Type tags (`Type`, from the generated atom_types header): the tags the code
names, the tags of its documented examples, and an open remainder. -/
inductive AType where
  | VARIABLE_NODE
  | CONCEPT_NODE
  | PREDICATE_NODE
  | AND_LINK
  | OR_LINK
  | NOT_LINK
  | QUOTE_LINK
  | INHERITANCE_LINK
  | EVALUATION_LINK
  | LIST_LINK
  | other (code : Nat)
  deriving DecidableEq, Repr

/-- An atom of the hypergraph: a node (type tag and name) or a link (type tag and
ordered outgoing set).  A `Handle` denotes an atom; atoms of one AtomSpace are unique,
so handle identity is structural identity. -/
inductive Atom where
  | node (t : AType) (name : String)
  | link (t : AType) (out : List Atom)
  deriving Repr

abbrev Handle := Atom
abbrev HandleSeq := List Handle

mutual
/-- Decision procedure for structural equality of atoms (`Handle::operator==`). -/
def Atom.decEq : (a b : Atom) → Decidable (a = b)
  | .node t n, .node t2 n2 =>
      if h : t = t2 ∧ n = n2 then isTrue (by rw [h.1, h.2])
      else isFalse (fun e => h (by cases e; exact ⟨rfl, rfl⟩))
  | .link t o, .link t2 o2 =>
      if h : t = t2 then
        match Atom.decEqList o o2 with
        | isTrue ho => isTrue (by rw [h, ho])
        | isFalse ho => isFalse (fun e => ho (by cases e; rfl))
      else isFalse (fun e => h (by cases e; rfl))
  | .node _ _, .link _ _ => isFalse (fun e => by cases e)
  | .link _ _, .node _ _ => isFalse (fun e => by cases e)
/-- Decision procedure for equality of outgoing sets. -/
def Atom.decEqList : (as bs : List Atom) → Decidable (as = bs)
  | [], [] => isTrue rfl
  | a :: as, b :: bs =>
      match Atom.decEq a b, Atom.decEqList as bs with
      | isTrue h1, isTrue h2 => isTrue (by rw [h1, h2])
      | isFalse h1, _ => isFalse (fun e => h1 (by cases e; rfl))
      | _, isFalse h2 => isFalse (fun e => h2 (by cases e; rfl))
  | [], _ :: _ => isFalse (fun e => by cases e)
  | _ :: _, [] => isFalse (fun e => by cases e)
end

instance : DecidableEq Atom := Atom.decEq

/-- The type tag of an atom: `Atom::getType()`. -/
def getType : Handle → AType
  | .node t _ => t
  | .link t _ => t

/-! ## Containers

`std::map<Handle, V>` is a list of entries with one entry per key, kept in the map's
iteration order.  That order is `Handle::operator<` (the order of the UUIDs the
AtomSpace assigned), which is not fixed by the program text: it is the parameter `lt`
of every function that writes to a map. -/

abbrev HandleMap (V : Type) := List (Handle × V)

/-- Lookup: `m.find(k)`, `none` for `m.end()`. -/
def HandleMap.find? {V : Type} : HandleMap V → Handle → Option V
  | [], _ => none
  | (k2, v) :: m, k => if k = k2 then some v else HandleMap.find? m k

/-- Key count: `m.count(k)`, 0 or 1. -/
def HandleMap.count {V : Type} (m : HandleMap V) (k : Handle) : Nat :=
  if (HandleMap.find? m k).isSome then 1 else 0

/-- Assignment `m[k] = v`: overwrites the entry of `k`, or inserts a new entry at the
place the key order gives it. -/
def HandleMap.set {V : Type} (lt : Handle → Handle → Bool) :
    HandleMap V → Handle → V → HandleMap V
  | [], k, v => [(k, v)]
  | (k2, v2) :: m, k, v =>
      if k = k2 then (k, v) :: m
      else if lt k k2 then (k, v) :: (k2, v2) :: m
      else (k2, v2) :: HandleMap.set lt m k v

/-- `std::unordered_set<Handle>`: the elements, each once. -/
abbrev UnorderedHandleSet := List Handle

/-- Set insertion: `s.emplace(h)` (no effect when `h` is already a member). -/
def UnorderedHandleSet.emplace (s : UnorderedHandleSet) (h : Handle) : UnorderedHandleSet :=
  if h ∈ s then s else s ++ [h]

/-- Member count: `s.count(h)`, 0 or 1. -/
def UnorderedHandleSet.count (s : UnorderedHandleSet) (h : Handle) : Nat :=
  if h ∈ s then 1 else 0

/-- Range insertion: `s.insert(vals.begin(), vals.end())`. -/
def UnorderedHandleSet.insertAll (s vals : UnorderedHandleSet) : UnorderedHandleSet :=
  vals.foldl UnorderedHandleSet.emplace s

/-- `VarMap`: `std::map<Handle, Handle>`. -/
abbrev VarMap := HandleMap Handle
/-- `VarMultimap`: `std::map<Handle, UnorderedHandleSet>`. -/
abbrev VarMultimap := HandleMap UnorderedHandleSet

/-- The value of `m[k]` when the values are sets or maps: the entry of `k`, or the
default-constructed (empty) value that `operator[]` creates when `k` is absent. -/
def HandleMap.at {α : Type} (m : HandleMap (List α)) (k : Handle) : List α :=
  (HandleMap.find? m k).getD []

/-! ## `BackwardChainer::unify` (lines 311-353) -/

mutual
/-- The function `unify(htarget, hmatch, result)`: returns the boolean result and the
final content of the reference parameter `result`. -/
def unify (lt : Handle → Handle → Bool) : Handle → Handle → VarMap → Bool × VarMap
  | .link ttype target_outg, .link mtype match_outg, result =>
      -- if the two links type are not equal
      if ttype ≠ mtype then (false, [])
      -- if the two links are not of equal size, cannot unify
      else if target_outg.length ≠ match_outg.length then (false, [])
      else
        match unify_outgoing lt target_outg match_outg result with
        | (false, result) => (false, result)
        | (true, result) => (!result.isEmpty, result)
  | htarget, hmatch, result =>
      if getType htarget = AType.VARIABLE_NODE then
        let result := HandleMap.set lt result htarget hmatch
        (!result.isEmpty, result)
      else (!result.isEmpty, result)
/-- The `for` loop of `unify` over the positions of two outgoing sets of equal size,
from the current position on.  The boolean is `false` when the loop left the function
by `return false`, `true` when it ran to its end. -/
def unify_outgoing (lt : Handle → Handle → Bool) :
    List Handle → List Handle → VarMap → Bool × VarMap
  | t :: target_outg, m :: match_outg, result =>
      if getType t = AType.VARIABLE_NODE then
        unify_outgoing lt target_outg match_outg (HandleMap.set lt result t m)
      else
        match unify lt t m result with
        | (false, result) => (false, result)
        | (true, result) => unify_outgoing lt target_outg match_outg result
  | _, _, result => (true, result)
end

/-! ## `BackwardChainer::join_premise_vgrounding_maps` (lines 378-432) -/

/-- The loop of lines 420-424: the members of `old_vals` that `vals` counts once. -/
def common_vals (old_vals vals : UnorderedHandleSet) : UnorderedHandleSet :=
  old_vals.foldl
    (fun common_vals o =>
      if UnorderedHandleSet.count vals o = 1 then UnorderedHandleSet.emplace common_vals o
      else common_vals)
    []

/-- The body of the inner loop of `join_premise_vgrounding_maps` for one entry
`key -> vals` of a sub-premise's solution. -/
def join_var (lt : Handle → Handle → Bool) (logical_link : Handle)
    (result : VarMultimap) (key : Handle) (vals : UnorderedHandleSet) : VarMultimap :=
  -- if OR_LINK, the mapping of common variable can be merged
  if getType logical_link = AType.OR_LINK then
    HandleMap.set lt result key (UnorderedHandleSet.insertAll (HandleMap.at result key) vals)
  -- if AND_LINK, the mapping of common variable must agree
  else if getType logical_link = AType.AND_LINK then
    let old_vals := HandleMap.at result key
    HandleMap.set lt result key (common_vals old_vals vals)
  else result

/-- The function `join_premise_vgrounding_maps(logical_link, premise_var_grounding_map)`:
the first sub-premise seeds the result, every later one is merged in, in the
iteration order of the map. -/
def join_premise_vgrounding_maps (lt : Handle → Handle → Bool) (logical_link : Handle)
    (premise_var_grounding_map : HandleMap VarMultimap) : VarMultimap :=
  match premise_var_grounding_map with
  | [] => []
  | (_, first) :: rest =>
      rest.foldl
        (fun result pvg =>
          pvg.2.foldl (fun result vg => join_var lt logical_link result vg.1 vg.2) result)
        first

/-! ## Collaborators that are not part of the file -/

/-- The outgoing set of a link: `LinkCast(h)->getOutgoingSet()` (a node has none). -/
def getOutgoingSet : Handle → HandleSeq
  | .node _ _ => []
  | .link _ out => out

mutual
/-- Modelled from the spec: `FindAtoms fv(VARIABLE_NODE); fv.find_atoms(h); fv.varset` and
`get_free_vars_in_tree(h)` (FindUtils.h and PatternUtils.h are missing): the atoms of
type VARIABLE_NODE in the tree of `h` that are not inside a QuoteLink, each once. -/
def find_variables : Handle → UnorderedHandleSet → UnorderedHandleSet
  | .node t name, varset =>
      if t = AType.VARIABLE_NODE then UnorderedHandleSet.emplace varset (.node t name) else varset
  | .link t out, varset =>
      if t = AType.VARIABLE_NODE then UnorderedHandleSet.emplace varset (.link t out)
      else if t = AType.QUOTE_LINK then varset
      else find_variables_outgoing out varset
/-- The variables of the atoms of an outgoing set, see `find_variables`. -/
def find_variables_outgoing : List Handle → UnorderedHandleSet → UnorderedHandleSet
  | [], varset => varset
  | h :: out, varset => find_variables_outgoing out (find_variables h varset)
end

/-- The free variables of a tree: `get_free_vars_in_tree(h)`. -/
def get_free_vars_in_tree (h : Handle) : HandleSeq := find_variables h []

mutual
/-- Modelled from the spec: `is_atom_in_tree(tree, atom)` (FindUtils.h is missing): whether
`atom` is `tree` or occurs in the tree spanned by the outgoing sets below `tree`. -/
def is_atom_in_tree : Handle → Handle → Bool
  | .node t name, atom => decide (Atom.node t name = atom)
  | .link t out, atom => decide (Atom.link t out = atom) || is_atom_in_outgoing out atom
/-- Whether the atom occurs in one of the trees of an outgoing set. -/
def is_atom_in_outgoing : List Handle → Handle → Bool
  | [], _ => false
  | h :: out, atom => is_atom_in_tree h atom || is_atom_in_outgoing out atom
end

/-- A rule (class `Rule`, not part of the file): its handle, its implicant and the
outputs of its implicand. -/
structure Rule where
  get_handle : Handle
  get_implicant : Handle
  get_implicand : HandleSeq
  deriving DecidableEq

/-- What a backward chainer is given and what it calls outside the file. -/
structure Env where
  /-- The order of handles, `Handle::operator<`. -/
  lt : Handle → Handle → Bool
  /-- The member `_rules_set`. -/
  _rules_set : List Rule
  /-- The member `_logical_link_types`. -/
  _logical_link_types : List AType
  /-- The pattern matcher run on a target: for each solution `i` it found, the
  grounded clause `pred_solns[i][htarget]`. -/
  pred_solns : Handle → HandleSeq
  /-- The value returned by the `n`-th call of `random()`. -/
  random : Nat → Nat
  /-- The method `Rule::gen_standardize_apart`, at the `n`-th call. -/
  gen_standardize_apart : Nat → Rule → Rule
  /-- The method `Instantiator::instantiate`. -/
  instantiate : Handle → VarMap → Handle

/-- The mutable members of a `BackwardChainer`. -/
structure State where
  /-- The stack of targets, top first. -/
  _targets_stack : List Handle
  _inference_history : HandleMap VarMultimap
  _inference_list : List VarMultimap
  _chaining_result : VarMultimap
  /-- How many rules have been selected so far (the state of `random()` and of the
  generator of fresh variables). -/
  selections : Nat

/-! ## `filter_rules`, `filter_knowledge_base`, `select_rule` (lines 228-290, 363-368) -/

/-- The function `filter_rules(htarget)`: the rules one of whose implicand outputs unifies
with the target, from a fresh mapping each. -/
def filter_rules (env : Env) (htarget : Handle) : List Rule :=
  env._rules_set.filter fun r =>
    r.get_implicand.any fun h => (unify env.lt h htarget []).1

/-- The function `filter_knowledge_base(htarget)`: the grounded clauses of the pattern
matcher's solutions that are not inside a rule.  The function ends without a `return`;
its value is taken to be the `results` it has built. -/
def filter_knowledge_base (env : Env) (htarget : Handle) : HandleSeq :=
  (env.pred_solns htarget).filter fun soln =>
    !(env._rules_set.any fun r => is_atom_in_tree r.get_handle soln)

/-- The function `select_rule(rules)`: `rules[random() % rules.size()]`. -/
def select_rule (rules : List Rule) (hne : 0 < rules.length) (rnd : Nat) : Rule :=
  rules.get ⟨rnd % rules.length, Nat.mod_lt _ hne⟩

/-! ## `do_bc` (lines 95-220) -/

/-- The statement `results[it->first].emplace(it->second)` for every entry of a mapping:
"construct the hgoal to all mappings here to be returned". -/
def add_mapping (lt : Handle → Handle → Bool) (results : VarMultimap) (mapping : VarMap) :
    VarMultimap :=
  mapping.foldl
    (fun results it =>
      HandleMap.set lt results it.1 (UnorderedHandleSet.emplace (HandleMap.at results it.1) it.2))
    results

/-- The loop of `do_bc` over the outputs of the selected rule (lines 168-181): the
final `implicand_mapping` and `results`. -/
def unify_outputs (lt : Handle → Handle → Bool) (hgoal : Handle) :
    HandleSeq → VarMap → VarMultimap → VarMap × VarMultimap
  | [], implicand_mapping, results => (implicand_mapping, results)
  | h :: outputs, _, results =>
      match unify lt h hgoal [] with
      | (false, implicand_mapping) => unify_outputs lt hgoal outputs implicand_mapping results
      | (true, implicand_mapping) => (implicand_mapping, add_mapping lt results implicand_mapping)

/-- The loop of `do_bc` over the knowledge-base matches (lines 197-216): the targets
stack and `results` after it. -/
def ground_by_matches (lt : Handle → Handle → Bool) (hgoal : Handle) :
    HandleSeq → List Handle → VarMultimap → List Handle × VarMultimap
  | [], stack, results => (stack, results)
  | soln :: kb_match, stack, results =>
      let vgm := (unify lt hgoal soln []).2
      let free_vars := get_free_vars_in_tree soln
      let stack := if free_vars.isEmpty then stack else soln :: stack
      ground_by_matches lt hgoal kb_match stack (add_mapping lt results vgm)

/-- The function `do_bc(hgoal)`: the returned substitution and the members after the call. -/
def do_bc (env : Env) (st : State) (hgoal : Handle) : VarMultimap × State :=
  -- check if this goal is already grounded
  match HandleMap.find? st._inference_history hgoal with
  | some subt => (subt, st)
  | none =>
  -- check whether this goal has free variables and worth exploring
  if (get_free_vars_in_tree hgoal).isEmpty then ([], st)
  -- if logical link, check if all its sub-premises are grounded already
  else if getType hgoal ∈ env._logical_link_types then
    let sub_premises := getOutgoingSet hgoal
    if sub_premises.any (fun h => HandleMap.count st._inference_history h = 0) then
      -- also add itself, then all sub-premises
      ([], { st with _targets_stack := sub_premises.reverse ++ hgoal :: st._targets_stack })
    else
      let sub_premises_vgrounding_maps : HandleMap VarMultimap :=
        sub_premises.foldl
          (fun m h => HandleMap.set env.lt m h (HandleMap.at st._inference_history h)) []
      (join_premise_vgrounding_maps env.lt hgoal sub_premises_vgrounding_maps, st)
  else
    let kb_match := filter_knowledge_base env hgoal
    if kb_match.isEmpty then
      let acceptable_rules := filter_rules env hgoal
      if hne : 0 < acceptable_rules.length then
        let standardized_rule :=
          env.gen_standardize_apart st.selections
            (select_rule acceptable_rules hne (env.random st.selections))
        let himplicant := standardized_rule.get_implicant
        let outputs := standardized_rule.get_implicand
        let (implicand_mapping, results) := unify_outputs env.lt hgoal outputs [] []
        let himplicant := env.instantiate himplicant implicand_mapping
        (results, { st with _targets_stack := himplicant :: st._targets_stack,
                            selections := st.selections + 1 })
      else ([], st)
    else
      let (stack, results) := ground_by_matches env.lt hgoal kb_match st._targets_stack []
      (results, { st with _targets_stack := stack })

/-! ## `chase_var_values`, `ground_target_vars` (lines 502-579) -/

/-- The function `chase_var_values(hvar, inference_list, results)`, with recursion depth
at most `fuel`: the `results` after the call, `none` when that depth does not suffice.
The outer fold is the loop over the maps of the inference list, the inner one the loop
over the groundings of `hvar` in such a map. -/
def chase_var_values (inference_list : List VarMultimap) :
    Nat → Handle → UnorderedHandleSet → Option UnorderedHandleSet
  | 0, _, _ => none
  | fuel + 1, hvar, results =>
      inference_list.foldlM
        (fun results vgm =>
          match HandleMap.find? vgm hvar with
          | none => some results
          | some groundings =>
              groundings.foldlM
                (fun results h =>
                  if getType h = AType.VARIABLE_NODE then
                    chase_var_values inference_list fuel h results
                  else some (UnorderedHandleSet.emplace results h))
                results)
        results

/-- The function `ground_target_vars(hgoal, inference_list)`, every chase with recursion
depth at most `fuel`; `none` when that depth does not suffice. -/
def ground_target_vars (lt : Handle → Handle → Bool) (fuel : Nat)
    (_inference_history : HandleMap VarMultimap) (hgoal : Handle)
    (inference_list : List VarMultimap) : Option VarMultimap :=
  -- check if inference history has a grounding for hgoal yet
  if HandleMap.count _inference_history hgoal = 0 then some []
  else
    -- find all VariableNode inside hgoal, but not those inside QuoteLink
    let varset := find_variables hgoal []
    -- check all inference history
    inference_list.foldlM
      (fun vg_map vgm =>
        -- check the mapping generated at each point
        vgm.foldlM
          (fun vg_map it =>
            let hvar := it.1
            -- if hvar is in hgoal
            if UnorderedHandleSet.count varset hvar = 1 then
              it.2.foldlM
                (fun vg_map h =>
                  let results :=
                    if getType h = AType.VARIABLE_NODE then
                      chase_var_values inference_list fuel h []
                    else some []
                  results.map fun results =>
                    HandleMap.set lt vg_map hvar
                      (UnorderedHandleSet.insertAll (HandleMap.at vg_map hvar) results))
                vg_map
            else some vg_map)
          vg_map)
      []

/-! ## `do_chain`, `get_chaining_result` (lines 52-85) -/

/-- The `while` loop of `do_chain`, at most `fuel` iterations: the members when the
targets stack has become empty, `none` when it has not within `fuel` iterations. -/
def chain_loop (env : Env) : Nat → State → Option State
  | 0, st => if st._targets_stack.isEmpty then some st else none
  | fuel + 1, st =>
      match st._targets_stack with
      | [] => some st
      | top :: stack =>
          let (subt, st) := do_bc env { st with _targets_stack := stack } top
          -- add the substitution to inference history
          chain_loop env fuel
            { st with _inference_history := HandleMap.set env.lt st._inference_history top subt }

/-- The function `do_chain(init_target)`: at most `fuel` iterations of the loop and
chases of depth at most `fuel`. -/
def do_chain (env : Env) (fuel : Nat) (st : State) (init_target : Handle) : Option State :=
  match chain_loop env fuel { st with _chaining_result := [], _targets_stack := [init_target] } with
  | none => none
  | some st =>
      (ground_target_vars env.lt fuel st._inference_history init_target st._inference_list).map
        fun result => { st with _chaining_result := result }

/-- The function `get_chaining_result()`. -/
def get_chaining_result (st : State) : VarMultimap := st._chaining_result

/-! ## Notions of the specification -/

mutual
/-- Whether an atom of type VARIABLE_NODE occurs in the tree of the atom. -/
def has_variable_node : Handle → Bool
  | .node t _ => decide (t = AType.VARIABLE_NODE)
  | .link t out => decide (t = AType.VARIABLE_NODE) || has_variable_node_outgoing out
/-- Whether an atom of type VARIABLE_NODE occurs in one of the trees of an outgoing set. -/
def has_variable_node_outgoing : List Handle → Bool
  | [] => false
  | h :: out => has_variable_node h || has_variable_node_outgoing out
end

mutual
/-- The atom with every variable node that is a key of the mapping replaced by its image. -/
def substitute (m : VarMap) : Handle → Handle
  | .node t name =>
      if t = AType.VARIABLE_NODE then (HandleMap.find? m (.node t name)).getD (.node t name)
      else .node t name
  | .link t out => .link t (substitute_outgoing m out)
/-- The outgoing set with every atom substituted, see `substitute`. -/
def substitute_outgoing (m : VarMap) : List Handle → List Handle
  | [] => []
  | h :: out => substitute m h :: substitute_outgoing m out
end

/-- A map is well formed when it has one entry per key. -/
def HandleMap.WF {V : Type} (m : HandleMap V) : Prop := (m.map Prod.fst).Nodup

instance {V : Type} (m : HandleMap V) : Decidable (HandleMap.WF m) := by
  unfold HandleMap.WF
  infer_instance

/-- The handle order of an AtomSpace that created the atoms of `table` in this order
(UUIDs are assigned in the order of creation). -/
def uuid_order (table : List Handle) : Handle → Handle → Bool :=
  fun a b => decide (table.indexOf a < table.indexOf b)

/-! ## Atoms of the examples -/

/-- The node `VariableNode name`. -/
def VariableNode (name : String) : Handle := .node AType.VARIABLE_NODE name
/-- The node `ConceptNode name`. -/
def ConceptNode (name : String) : Handle := .node AType.CONCEPT_NODE name
/-- The link `InheritanceLink a b`. -/
def InheritanceLink (a b : Handle) : Handle := .link AType.INHERITANCE_LINK [a, b]
/-- The link `ListLink a b`. -/
def ListLink (a b : Handle) : Handle := .link AType.LIST_LINK [a, b]
/-- The link `AndLink a b`. -/
def AndLink (a b : Handle) : Handle := .link AType.AND_LINK [a, b]
/-- The link `OrLink a b`. -/
def OrLink (a b : Handle) : Handle := .link AType.OR_LINK [a, b]

/-- The handle order of the examples: the atoms in their order of creation. -/
def example_lt : Handle → Handle → Bool :=
  uuid_order [VariableNode "$x", VariableNode "$y", ConceptNode "Fido", ConceptNode "Animal",
    ConceptNode "Plant", ConceptNode "1", ConceptNode "2", ConceptNode "3"]

/-- A fresh backward chainer: nothing on the stack, no history, no inference list. -/
def fresh_state : State :=
  { _targets_stack := [], _inference_history := [], _inference_list := [],
    _chaining_result := [], selections := 0 }

/-- An environment without rules whose pattern matcher finds the clauses of `facts`
for the target `goal` and nothing for any other target. -/
def facts_env (goal : Handle) (facts : HandleSeq) : Env :=
  { lt := example_lt
    _rules_set := []
    _logical_link_types := [AType.AND_LINK, AType.OR_LINK, AType.NOT_LINK]
    pred_solns := fun htarget => if htarget = goal then facts else []
    random := fun _ => 0
    gen_standardize_apart := fun _ r => r
    instantiate := fun h _ => h }

/-- An environment without rules whose pattern matcher finds, for each target that is
a key of `kb`, the clauses `kb` lists for it, and nothing for any other target. -/
def kb_env (kb : HandleMap HandleSeq) : Env :=
  { lt := example_lt
    _rules_set := []
    _logical_link_types := [AType.AND_LINK, AType.OR_LINK, AType.NOT_LINK]
    pred_solns := fun htarget => HandleMap.at kb htarget
    random := fun _ => 0
    gen_standardize_apart := fun _ r => r
    instantiate := fun h _ => h }

/-- The inference list of the chain `$x -> $y`, `$y -> "dog"`. -/
def chain_list : List VarMultimap :=
  [[(VariableNode "$x", [VariableNode "$y"])], [(VariableNode "$y", [ConceptNode "dog"])]]

/-- A rank that decreases along the chain `$x -> $y`. -/
def chain_rank (h : Handle) : Nat := if h = VariableNode "$x" then 1 else 0

/-- The inference list of the cycle `$x -> $y`, `$y -> $x`. -/
def cycle_list : List VarMultimap :=
  [[(VariableNode "$x", [VariableNode "$y"])], [(VariableNode "$y", [VariableNode "$x"])]]

/-! ## Iterations of the loop of `do_chain` and the calls they make -/

/-- One iteration of the `while` loop of `do_chain` (lines 61-67): pop the top, run
`do_bc` on it, store what it returns in the inference history.  No effect on an empty
stack, where the loop has ended. -/
def chain_step (env : Env) (st : State) : State :=
  match st._targets_stack with
  | [] => st
  | top :: stack =>
      let (subt, st) := do_bc env { st with _targets_stack := stack } top
      { st with _inference_history := HandleMap.set env.lt st._inference_history top subt }

/-- A call of `do_bc` to the knowledge-base query or to the rule filter. -/
inductive Call where
  | filter_knowledge_base (htarget : Handle)
  | filter_rules (htarget : Handle)
  deriving DecidableEq

/-- The goal a call is made with. -/
def Call.target : Call → Handle
  | .filter_knowledge_base htarget => htarget
  | .filter_rules htarget => htarget

/-- The calls `filter_knowledge_base(hgoal)` (line 134) and `filter_rules(hgoal)`
(line 147) that `do_bc(hgoal)` makes, in the order it makes them: none when it returns
at line 99, 103, 121 or 130, the rule filter only when the knowledge base has no match. -/
def do_bc_calls (env : Env) (st : State) (hgoal : Handle) : List Call :=
  match HandleMap.find? st._inference_history hgoal with
  | some _ => []
  | none =>
  if (get_free_vars_in_tree hgoal).isEmpty then []
  else if getType hgoal ∈ env._logical_link_types then []
  else
    let kb_match := filter_knowledge_base env hgoal
    if kb_match.isEmpty then [Call.filter_knowledge_base hgoal, Call.filter_rules hgoal]
    else [Call.filter_knowledge_base hgoal]

/-- The calls made by the first `n` iterations of the loop of `do_chain`, in order. -/
def chain_calls (env : Env) : Nat → State → List Call
  | 0, _ => []
  | n + 1, st =>
      match st._targets_stack with
      | [] => []
      | top :: stack =>
          do_bc_calls env { st with _targets_stack := stack } top ++
            chain_calls env n (chain_step env st)

/-! ## Bindings of an inference list -/

/-- The inference list binds `u` to `h`: `h` is one of the groundings of `u` in one of
its maps. -/
def Binds (inference_list : List VarMultimap) (u h : Handle) : Prop :=
  ∃ vgm ∈ inference_list, ∃ s, HandleMap.find? vgm u = some s ∧ h ∈ s

/-- The atom `a` is a non-variable atom reachable from `u` by following bindings of the
inference list through variables. -/
inductive Grounds (inference_list : List VarMultimap) : Handle → Handle → Prop where
  | direct {u a : Handle} : Binds inference_list u a → getType a ≠ AType.VARIABLE_NODE →
      Grounds inference_list u a
  | step {u h a : Handle} : Binds inference_list u h → getType h = AType.VARIABLE_NODE →
      Grounds inference_list h a → Grounds inference_list u a

/-- The variable bindings of the inference list are acyclic: `rank` decreases along
every binding of an atom to a variable. -/
def Acyclic (inference_list : List VarMultimap) (rank : Handle → Nat) : Prop :=
  ∀ u h, Binds inference_list u h → getType h = AType.VARIABLE_NODE → rank h < rank u

/-! ## Variable occurrences of a pattern -/

mutual
/-- The writes `result[v] = t` that `unify(htarget, hmatch, result)` makes when no test
fails, in the order it makes them: one for each occurrence of a variable in the
pattern, left to right and depth first, with the atom `t` at the same position of
`hmatch`. -/
def occurrences : Handle → Handle → List (Handle × Handle)
  | .link _ target_outg, .link _ match_outg => occurrences_outgoing target_outg match_outg
  | htarget, hmatch =>
      if getType htarget = AType.VARIABLE_NODE then [(htarget, hmatch)] else []
/-- The writes of the loop of `unify` over two outgoing sets, see `occurrences`. -/
def occurrences_outgoing : List Handle → List Handle → List (Handle × Handle)
  | t :: target_outg, m :: match_outg =>
      (if getType t = AType.VARIABLE_NODE then [(t, m)] else occurrences t m) ++
        occurrences_outgoing target_outg match_outg
  | _, _ => []
end

mutual
/-- The concrete atom with the atom at every position where the loop of `unify` finds a
variable of the pattern replaced by that variable: what is left of it when the atoms
that the loop only stores are forgotten. -/
def forget_bound : Handle → Handle → Handle
  | .link _ target_outg, .link mtype match_outg =>
      .link mtype (forget_bound_outgoing target_outg match_outg)
  | _, hmatch => hmatch
/-- The outgoing set with the atoms at variable positions forgotten, see `forget_bound`. -/
def forget_bound_outgoing : List Handle → List Handle → List Handle
  | t :: target_outg, m :: match_outg =>
      (if getType t = AType.VARIABLE_NODE then t else forget_bound t m) ::
        forget_bound_outgoing target_outg match_outg
  | _, match_outg => match_outg
end

/-- The map after the writes `m[k] = v` for the pairs of a list, in order. -/
def HandleMap.writes {V : Type} (lt : Handle → Handle → Bool) (m : HandleMap V)
    (l : List (Handle × V)) : HandleMap V :=
  l.foldl (fun m e => HandleMap.set lt m e.1 e.2) m

/-- The atom paired with the last occurrence of `v` in a list of occurrences. -/
def last_occurrence : List (Handle × Handle) → Handle → Option Handle
  | [], _ => none
  | (k, t) :: l, v =>
      match last_occurrence l v with
      | some t2 => some t2
      | none => if v = k then some t else none

/-! ## More atoms and environments of the examples -/

/-- The link `NotLink a`. -/
def NotLink (a : Handle) : Handle := .link AType.NOT_LINK [a]

/-- An environment with the rules `rules` and an empty knowledge base, whose selection
takes the first acceptable rule, whose standardization leaves a rule as it is and whose
instantiation replaces the mapped variables. -/
def rules_env (rules : List Rule) : Env :=
  { lt := example_lt
    _rules_set := rules
    _logical_link_types := [AType.AND_LINK, AType.OR_LINK, AType.NOT_LINK]
    pred_solns := fun _ => []
    random := fun _ => 0
    gen_standardize_apart := fun _ r => r
    instantiate := fun h m => substitute m h }

/-- The rule "what is a mammal is an animal": implicant `Inheritance($y, "Mammal")`,
one implicand output `Inheritance($y, "Animal")`. -/
def mammal_rule : Rule :=
  { get_handle := ListLink (InheritanceLink (VariableNode "$y") (ConceptNode "Mammal"))
      (InheritanceLink (VariableNode "$y") (ConceptNode "Animal"))
    get_implicant := InheritanceLink (VariableNode "$y") (ConceptNode "Mammal")
    get_implicand := [InheritanceLink (VariableNode "$y") (ConceptNode "Animal")] }

/-! ## Goals without a proof -/

/-- The goal has free variables, is not a logical connective, has no knowledge-base
match, and no rule passes `filter_rules`. -/
def Unprovable (env : Env) (g : Handle) : Prop :=
  (get_free_vars_in_tree g).isEmpty = false ∧ getType g ∉ env._logical_link_types ∧
    filter_knowledge_base env g = [] ∧ filter_rules env g = []

/-! ## `get_logical_link_premises_map` (lines 466-491) -/

/-- The `for` loop of lines 482-486 over the outgoing set of `head`, from the current
child on: the map and the visit stack after it. -/
def visit_premises (lt : Handle → Handle → Bool) (head : Handle) :
    List Handle → HandleMap HandleSeq → List Handle → HandleMap HandleSeq × List Handle
  | [], logical_link_premise_map, visit_stack => (logical_link_premise_map, visit_stack)
  | h :: out, logical_link_premise_map, visit_stack =>
      visit_premises lt head out
        (HandleMap.set lt logical_link_premise_map head
          (HandleMap.at logical_link_premise_map head ++ [h]))
        (h :: visit_stack)

/-- The `while` loop of `get_logical_link_premises_map`, at most `fuel` iterations: the
map when the visit stack has become empty, `none` when it has not within `fuel`
iterations. -/
def premises_loop (env : Env) :
    Nat → List Handle → HandleMap HandleSeq → Option (HandleMap HandleSeq)
  | 0, visit_stack, logical_link_premise_map =>
      if visit_stack.isEmpty then some logical_link_premise_map else none
  | fuel + 1, visit_stack, logical_link_premise_map =>
      match visit_stack with
      | [] => some logical_link_premise_map
      | head :: visit_stack =>
          -- if not a logical link, continue
          if getType head ∉ env._logical_link_types then
            premises_loop env fuel visit_stack logical_link_premise_map
          else
            let (logical_link_premise_map, visit_stack) :=
              visit_premises env.lt head (getOutgoingSet head) logical_link_premise_map
                visit_stack
            premises_loop env fuel visit_stack logical_link_premise_map

/-- The function `get_logical_link_premises_map(himplicant)`, at most `fuel` iterations
of its loop. -/
def get_logical_link_premises_map (env : Env) (fuel : Nat) (himplicant : Handle) :
    Option (HandleMap HandleSeq) :=
  premises_loop env fuel [himplicant] []

mutual
/-- The atoms reached from an atom through logical connectives only, once for every
way of reaching them: the atom itself and, when it is a logical connective, what is
reached from its children. -/
def reached (logical : List AType) : Handle → List Handle
  | .node t name => [.node t name]
  | .link t out =>
      .link t out :: (if t ∈ logical then reached_outgoing logical out else [])
/-- The atoms reached from the atoms of an outgoing set, see `reached`. -/
def reached_outgoing (logical : List AType) : List Handle → List Handle
  | [] => []
  | h :: out => reached logical h ++ reached_outgoing logical out
end

/-- How often the atom `k` is reached from the atoms of a visit stack. -/
def visit_count (logical : List AType) (k : Handle) (visit_stack : List Handle) : Nat :=
  (visit_stack.map fun s => (reached logical s).count k).sum

/-- How many atoms are reached from the atoms of a visit stack, each counted as often
as it is reached: the number of iterations the loop makes on this stack. -/
def visit_total (logical : List AType) (visit_stack : List Handle) : Nat :=
  (visit_stack.map fun s => (reached logical s).length).sum

/-- The node `PredicateNode name`. -/
def PredicateNode (name : String) : Handle := .node AType.PREDICATE_NODE name
/-- The link `EvaluationLink a b`. -/
def EvaluationLink (a b : Handle) : Handle := .link AType.EVALUATION_LINK [a, b]

/-- The implicant of the documented example of `get_logical_link_premises_map`. -/
def example_implicant : Handle :=
  AndLink (InheritanceLink (VariableNode "$x") (ConceptNode "Animal"))
    (AndLink
      (EvaluationLink (PredicateNode "eats")
        (ListLink (VariableNode "$x") (ConceptNode "leaves")))
      (EvaluationLink (PredicateNode "eats")
        (ListLink (VariableNode "$x") (ConceptNode "flesh"))))

/-! # Theorems -/

/-! ## Maps -/

theorem HandleMap.find?_set {V : Type} (lt : Handle → Handle → Bool) (m : HandleMap V)
    (k : Handle) (v : V) (j : Handle) :
    HandleMap.find? (HandleMap.set lt m k v) j = if j = k then some v else HandleMap.find? m j := by
  induction m with
  | nil => simp [HandleMap.set, HandleMap.find?]
  | cons e m ih =>
    obtain ⟨k2, v2⟩ := e
    by_cases h1 : k = k2
    · subst h1
      by_cases h2 : j = k <;> simp [HandleMap.set, HandleMap.find?, h2]
    · by_cases h3 : lt k k2 = true
      · simp [HandleMap.set, HandleMap.find?, h1, h3]
      · by_cases h2 : j = k2
        · subst h2
          have : ¬ j = k := fun e => h1 e.symm
          simp [HandleMap.set, HandleMap.find?, h1, h3, this]
        · simp [HandleMap.set, HandleMap.find?, h1, h3, h2, ih]

theorem HandleMap.set_ne_nil {V : Type} (lt : Handle → Handle → Bool) (m : HandleMap V)
    (k : Handle) (v : V) : HandleMap.set lt m k v ≠ [] := by
  cases m with
  | nil => simp [HandleMap.set]
  | cons e m =>
    obtain ⟨k2, v2⟩ := e
    simp only [HandleMap.set]
    split
    · simp
    · split <;> simp

/-! ## Unification -/

/-- C2: for every variable node `v` and every atom `g`, `unify(v, g, m)` with an empty
`m` returns true and leaves `m` equal to exactly `{v -> g}`. -/
theorem unify_variable (lt : Handle → Handle → Bool) (name : String) (g : Handle) :
    unify lt (.node AType.VARIABLE_NODE name) g [] =
      (true, [(.node AType.VARIABLE_NODE name, g)]) := by
  simp [unify, getType, HandleMap.set]

mutual
theorem unify_ground_aux (lt : Handle → Handle → Bool) :
    ∀ (a b : Handle), has_variable_node a = false → unify lt a b [] = (false, [])
  | .node t name, b, h => by
      have ht : ¬ t = AType.VARIABLE_NODE := by simpa [has_variable_node] using h
      simp [unify, getType, ht]
  | .link t out, .node t2 name, h => by
      have ht : ¬ t = AType.VARIABLE_NODE := by
        intro e; simp [has_variable_node, e] at h
      simp [unify, getType, ht]
  | .link t out, .link t2 out2, h => by
      have ho : has_variable_node_outgoing out = false := by
        simp only [has_variable_node, Bool.or_eq_false_iff] at h
        exact h.2
      by_cases h1 : t = t2
      · by_cases h2 : out.length = out2.length
        · rcases unify_outgoing_ground_aux lt out out2 ho with h3 | h3 <;>
            simp [unify, h1, h2, h3]
        · simp [unify, h1, h2]
      · simp [unify, h1]
theorem unify_outgoing_ground_aux (lt : Handle → Handle → Bool) :
    ∀ (ts ms : List Handle), has_variable_node_outgoing ts = false →
      unify_outgoing lt ts ms [] = (false, []) ∨ unify_outgoing lt ts ms [] = (true, [])
  | [], ms, _ => by simp [unify_outgoing]
  | t :: ts, [], _ => by simp [unify_outgoing]
  | t :: ts, m :: ms, h => by
      simp only [has_variable_node_outgoing, Bool.or_eq_false_iff] at h
      have ht : ¬ getType t = AType.VARIABLE_NODE := by
        intro e
        cases t <;> simp [has_variable_node, getType] at h e <;> simp [e] at h
      left
      simp [unify_outgoing, ht, unify_ground_aux lt t m h.1]
end

/-- C3 (as the code behaves): `unify(a, a, m)` with an empty `m` returns false for the
ground atom `ConceptNode "Animal"`, and for the ground link
`InheritanceLink (ConceptNode "Fido") (ConceptNode "Animal")`; the map stays empty. -/
theorem unify_ground_self_fails (lt : Handle → Handle → Bool) :
    unify lt (ConceptNode "Animal") (ConceptNode "Animal") [] = (false, []) ∧
    unify lt (InheritanceLink (ConceptNode "Fido") (ConceptNode "Animal"))
      (InheritanceLink (ConceptNode "Fido") (ConceptNode "Animal")) [] = (false, []) :=
  ⟨unify_ground_aux lt _ _ (by decide), unify_ground_aux lt _ _ (by decide)⟩

/-- C4: for all atoms `a` and `b` that contain no variable nodes and are structurally
distinct, `unify(a, b, m)` with an empty `m` returns false. -/
theorem unify_ground_distinct (lt : Handle → Handle → Bool) (a b : Handle)
    (ha : has_variable_node a = false) (_hb : has_variable_node b = false) (_hne : a ≠ b) :
    (unify lt a b []).1 = false := by
  rw [unify_ground_aux lt a b ha]

theorem unify_ground_distinct_witness :
    has_variable_node (ConceptNode "Fido") = false ∧
    has_variable_node (ConceptNode "Animal") = false ∧
    ConceptNode "Fido" ≠ ConceptNode "Animal" ∧
    (unify example_lt (ConceptNode "Fido") (ConceptNode "Animal") []).1 = false :=
  ⟨by decide, by decide, by decide,
    unify_ground_distinct example_lt (ConceptNode "Fido") (ConceptNode "Animal")
      (by decide) (by decide) (by decide)⟩

/-- C5 (as the code behaves): the pattern `Inheritance($x, "Animal")` unifies with
`Inheritance("Fido", "Plant")`, binding `$x` to `"Fido"`, although the leaf `"Animal"`
differs from `"Plant"`; the pattern `Inheritance("Animal", $x)` does not unify with
`Inheritance("Plant", "Fido")`. -/
theorem unify_leaf_mismatch_succeeds (lt : Handle → Handle → Bool) :
    unify lt (InheritanceLink (VariableNode "$x") (ConceptNode "Animal"))
      (InheritanceLink (ConceptNode "Fido") (ConceptNode "Plant")) [] =
        (true, [(VariableNode "$x", ConceptNode "Fido")]) ∧
    unify lt (InheritanceLink (ConceptNode "Animal") (VariableNode "$x"))
      (InheritanceLink (ConceptNode "Plant") (ConceptNode "Fido")) [] = (false, []) := by
  constructor <;>
    simp [unify, unify_outgoing, getType, HandleMap.set, InheritanceLink, VariableNode,
      ConceptNode]

/-- C6: for all links `p` and `c` whose type tags differ or whose child counts differ,
`unify(p, c, m)` returns false and leaves `m` empty, whatever `m` held before. -/
theorem unify_link_mismatch (lt : Handle → Handle → Bool) (ptype ctype : AType)
    (pout cout : List Handle) (m : VarMap)
    (h : ptype ≠ ctype ∨ pout.length ≠ cout.length) :
    unify lt (.link ptype pout) (.link ctype cout) m = (false, []) := by
  by_cases h1 : ptype = ctype
  · have h2 : ¬ pout.length = cout.length := by
      rcases h with h | h
      · exact absurd h1 h
      · exact h
    simp [unify, h1, h2]
  · simp [unify, h1]

theorem unify_link_mismatch_witness :
    (AType.INHERITANCE_LINK ≠ AType.LIST_LINK ∨
      [VariableNode "$x", ConceptNode "Animal"].length ≠ [ConceptNode "Fido"].length) ∧
    unify example_lt (.link AType.INHERITANCE_LINK [VariableNode "$x", ConceptNode "Animal"])
      (.link AType.LIST_LINK [ConceptNode "Fido"])
      [(VariableNode "$y", ConceptNode "Plant")] = (false, []) :=
  ⟨by decide, unify_link_mismatch example_lt _ _ _ _ _ (by decide)⟩

/-- C7 (as the code behaves): `unify` returns true for the pattern
`Inheritance($x, "Animal")` and the atom `Inheritance("Fido", "Plant")`, and the
pattern with its variables replaced by their images under the resulting mapping is
`Inheritance("Fido", "Animal")`, which is not the atom. -/
theorem unify_result_not_unifier :
    (unify example_lt (InheritanceLink (VariableNode "$x") (ConceptNode "Animal"))
      (InheritanceLink (ConceptNode "Fido") (ConceptNode "Plant")) []).1 = true ∧
    substitute
      (unify example_lt (InheritanceLink (VariableNode "$x") (ConceptNode "Animal"))
        (InheritanceLink (ConceptNode "Fido") (ConceptNode "Plant")) []).2
      (InheritanceLink (VariableNode "$x") (ConceptNode "Animal")) =
        InheritanceLink (ConceptNode "Fido") (ConceptNode "Animal") ∧
    substitute
      (unify example_lt (InheritanceLink (VariableNode "$x") (ConceptNode "Animal"))
        (InheritanceLink (ConceptNode "Fido") (ConceptNode "Plant")) []).2
      (InheritanceLink (VariableNode "$x") (ConceptNode "Animal")) ≠
        InheritanceLink (ConceptNode "Fido") (ConceptNode "Plant") := by
  decide

/-! ## Joining the groundings of sub-premises -/

theorem UnorderedHandleSet.mem_emplace (s : UnorderedHandleSet) (h a : Handle) :
    a ∈ UnorderedHandleSet.emplace s h ↔ a ∈ s ∨ a = h := by
  unfold UnorderedHandleSet.emplace
  split
  · constructor
    · intro ha; exact Or.inl ha
    · rintro (ha | ha)
      · exact ha
      · subst ha; assumption
  · simp

theorem UnorderedHandleSet.mem_insertAll (vals s : UnorderedHandleSet) (a : Handle) :
    a ∈ UnorderedHandleSet.insertAll s vals ↔ a ∈ s ∨ a ∈ vals := by
  unfold UnorderedHandleSet.insertAll
  induction vals generalizing s with
  | nil => simp
  | cons h vals ih =>
    rw [List.foldl_cons, ih, UnorderedHandleSet.mem_emplace]
    simp only [List.mem_cons]
    tauto

theorem mem_common_vals_aux (vals old acc : UnorderedHandleSet) (a : Handle) :
    a ∈ old.foldl
        (fun common_vals o =>
          if UnorderedHandleSet.count vals o = 1 then UnorderedHandleSet.emplace common_vals o
          else common_vals) acc ↔
      a ∈ acc ∨ (a ∈ old ∧ a ∈ vals) := by
  induction old generalizing acc with
  | nil => simp
  | cons o old ih =>
    rw [List.foldl_cons, ih]
    by_cases ho : o ∈ vals
    · simp only [UnorderedHandleSet.count, ho, if_true, UnorderedHandleSet.mem_emplace,
        List.mem_cons]
      constructor
      · rintro ((h | h) | h)
        · exact Or.inl h
        · subst h; exact Or.inr ⟨Or.inl rfl, ho⟩
        · exact Or.inr ⟨Or.inr h.1, h.2⟩
      · rintro (h | ⟨h | h, hv⟩)
        · exact Or.inl (Or.inl h)
        · exact Or.inl (Or.inr h)
        · exact Or.inr ⟨h, hv⟩
    · simp only [UnorderedHandleSet.count, ho, if_false, List.mem_cons]
      constructor
      · rintro (h | h)
        · exact Or.inl h
        · exact Or.inr ⟨Or.inr h.1, h.2⟩
      · rintro (h | ⟨h | h, hv⟩)
        · exact Or.inl h
        · subst h; exact absurd hv ho
        · exact Or.inr ⟨h, hv⟩

theorem mem_common_vals (old vals : UnorderedHandleSet) (a : Handle) :
    a ∈ common_vals old vals ↔ a ∈ old ∧ a ∈ vals := by
  unfold common_vals
  rw [mem_common_vals_aux]
  simp

theorem HandleMap.at_set {α : Type} (lt : Handle → Handle → Bool) (m : HandleMap (List α))
    (k : Handle) (v : List α) (j : Handle) :
    HandleMap.at (HandleMap.set lt m k v) j = if j = k then v else HandleMap.at m j := by
  unfold HandleMap.at
  rw [HandleMap.find?_set]
  split <;> rfl

theorem HandleMap.find?_eq_none {V : Type} (m : HandleMap V) (k : Handle)
    (h : k ∉ m.map Prod.fst) : HandleMap.find? m k = none := by
  induction m with
  | nil => rfl
  | cons e m ih =>
    obtain ⟨k2, v2⟩ := e
    simp only [List.map_cons, List.mem_cons, not_or] at h
    simp [HandleMap.find?, h.1, ih h.2]

theorem HandleMap.isSome_find?_iff {V : Type} (m : HandleMap V) (k : Handle) :
    (HandleMap.find? m k).isSome = true ↔ k ∈ m.map Prod.fst := by
  induction m with
  | nil => simp [HandleMap.find?]
  | cons e m ih =>
    obtain ⟨k2, v2⟩ := e
    by_cases h : k = k2
    · simp [HandleMap.find?, h]
    · simp only [HandleMap.find?, h, if_false, ih, List.map_cons, List.mem_cons, false_or]

theorem HandleMap.mem_at_iff {α : Type} (m : HandleMap (List α)) (hwf : HandleMap.WF m)
    (k : Handle) (a : α) :
    a ∈ HandleMap.at m k ↔ ∃ e ∈ m, e.1 = k ∧ a ∈ e.2 := by
  induction m with
  | nil => simp [HandleMap.at, HandleMap.find?]
  | cons e m ih =>
    obtain ⟨k2, v2⟩ := e
    unfold HandleMap.WF at hwf
    rw [List.map_cons, List.nodup_cons] at hwf
    have ih2 := ih hwf.2
    by_cases h : k = k2
    · subst h
      have hno : ∀ e ∈ m, ¬ e.1 = k := by
        intro e he hk
        have hmem : e.1 ∈ m.map Prod.fst := List.mem_map_of_mem Prod.fst he
        rw [hk] at hmem
        exact hwf.1 hmem
      simp only [HandleMap.at, HandleMap.find?, if_true, Option.getD_some, List.mem_cons]
      constructor
      · intro ha; exact ⟨(k, v2), Or.inl rfl, rfl, ha⟩
      · rintro ⟨e, he | he, hk, ha⟩
        · subst he; exact ha
        · exact absurd hk (hno e he)
    · have h2 : HandleMap.at ((k2, v2) :: m) k = HandleMap.at m k := by
        simp [HandleMap.at, HandleMap.find?, h]
      rw [h2, ih2]
      constructor
      · rintro ⟨e, he, hk, ha⟩; exact ⟨e, List.mem_cons_of_mem _ he, hk, ha⟩
      · rintro ⟨e, he, hk, ha⟩
        rcases List.mem_cons.1 he with he | he
        · subst he; exact absurd hk.symm h
        · exact ⟨e, he, hk, ha⟩

theorem join_var_or (lt : Handle → Handle → Bool) (ll : Handle)
    (hor : getType ll = AType.OR_LINK) (result : VarMultimap) (key : Handle)
    (vals : UnorderedHandleSet) :
    join_var lt ll result key vals =
      HandleMap.set lt result key (UnorderedHandleSet.insertAll (HandleMap.at result key) vals) := by
  simp [join_var, hor]

theorem or_inner (lt : Handle → Handle → Bool) (ll : Handle)
    (hor : getType ll = AType.OR_LINK) (v : Handle) (vg result : VarMultimap) :
    ((HandleMap.find? (vg.foldl (fun r e => join_var lt ll r e.1 e.2) result) v).isSome = true ↔
        (HandleMap.find? result v).isSome = true ∨ v ∈ vg.map Prod.fst) ∧
    ∀ a, (a ∈ HandleMap.at (vg.foldl (fun r e => join_var lt ll r e.1 e.2) result) v ↔
        a ∈ HandleMap.at result v ∨ ∃ e ∈ vg, e.1 = v ∧ a ∈ e.2) := by
  induction vg generalizing result with
  | nil => simp
  | cons e vg ih =>
    obtain ⟨key, vals⟩ := e
    rw [List.foldl_cons]
    obtain ⟨ih1, ih2⟩ := ih (join_var lt ll result key vals)
    constructor
    · rw [ih1, join_var_or lt ll hor, HandleMap.find?_set]
      by_cases h : v = key
      · simp [h]
      · simp [h]
    · intro a
      rw [ih2, join_var_or lt ll hor, HandleMap.at_set]
      by_cases h : v = key
      · subst h
        simp only [if_true, UnorderedHandleSet.mem_insertAll, List.mem_cons]
        constructor
        · rintro ((h | h) | ⟨e, he, hk, ha⟩)
          · exact Or.inl h
          · exact Or.inr ⟨(v, vals), Or.inl rfl, rfl, h⟩
          · exact Or.inr ⟨e, Or.inr he, hk, ha⟩
        · rintro (h | ⟨e, he | he, hk, ha⟩)
          · exact Or.inl (Or.inl h)
          · subst he; exact Or.inl (Or.inr ha)
          · exact Or.inr ⟨e, he, hk, ha⟩
      · simp only [h, if_false, List.mem_cons]
        constructor
        · rintro (h1 | ⟨e, he, hk, ha⟩)
          · exact Or.inl h1
          · exact Or.inr ⟨e, Or.inr he, hk, ha⟩
        · rintro (h1 | ⟨e, he | he, hk, ha⟩)
          · exact Or.inl h1
          · subst he; exact absurd hk.symm h
          · exact Or.inr ⟨e, he, hk, ha⟩

theorem or_outer (lt : Handle → Handle → Bool) (ll : Handle)
    (hor : getType ll = AType.OR_LINK) (v : Handle) (rest : HandleMap VarMultimap)
    (hwf : ∀ e ∈ rest, HandleMap.WF e.2) (result : VarMultimap) :
    ((HandleMap.find? (rest.foldl
        (fun result pvg => pvg.2.foldl (fun r e => join_var lt ll r e.1 e.2) result) result)
        v).isSome = true ↔
      (HandleMap.find? result v).isSome = true ∨
        ∃ e ∈ rest, (HandleMap.find? e.2 v).isSome = true) ∧
    ∀ a, (a ∈ HandleMap.at (rest.foldl
        (fun result pvg => pvg.2.foldl (fun r e => join_var lt ll r e.1 e.2) result) result) v ↔
      a ∈ HandleMap.at result v ∨ ∃ e ∈ rest, a ∈ HandleMap.at e.2 v) := by
  induction rest generalizing result with
  | nil => simp
  | cons p rest ih =>
    rw [List.foldl_cons]
    have hp : HandleMap.WF p.2 := hwf p (List.mem_cons_self _ _)
    obtain ⟨ih1, ih2⟩ :=
      ih (fun e he => hwf e (List.mem_cons_of_mem _ he))
        (p.2.foldl (fun r e => join_var lt ll r e.1 e.2) result)
    obtain ⟨in1, in2⟩ := or_inner lt ll hor v p.2 result
    constructor
    · rw [ih1, in1, ← HandleMap.isSome_find?_iff]
      simp only [List.mem_cons, exists_eq_or_imp, or_assoc]
    · intro a
      rw [ih2, in2, ← HandleMap.mem_at_iff p.2 hp]
      simp only [List.mem_cons, exists_eq_or_imp, or_assoc]

/-- C8: for an OR_LINK connective and every map from children to (well-formed)
substitutions, the key set of `join_premise_vgrounding_maps` is the union of the
children's key sets, and the value set of each variable is the union of its value sets
over the children. -/
theorem join_or_is_union (lt : Handle → Handle → Bool) (logical_link : Handle)
    (premise_var_grounding_map : HandleMap VarMultimap)
    (hor : getType logical_link = AType.OR_LINK)
    (hwf : ∀ e ∈ premise_var_grounding_map, HandleMap.WF e.2) (v : Handle) :
    ((HandleMap.find? (join_premise_vgrounding_maps lt logical_link premise_var_grounding_map)
        v).isSome = true ↔
      ∃ e ∈ premise_var_grounding_map, (HandleMap.find? e.2 v).isSome = true) ∧
    ∀ a, (a ∈ HandleMap.at
        (join_premise_vgrounding_maps lt logical_link premise_var_grounding_map) v ↔
      ∃ e ∈ premise_var_grounding_map, a ∈ HandleMap.at e.2 v) := by
  cases premise_var_grounding_map with
  | nil => simp [join_premise_vgrounding_maps, HandleMap.find?, HandleMap.at]
  | cons p rest =>
    obtain ⟨c, first⟩ := p
    obtain ⟨h1, h2⟩ :=
      or_outer lt logical_link hor v rest (fun e he => hwf e (List.mem_cons_of_mem _ he)) first
    constructor
    · simp only [join_premise_vgrounding_maps, List.mem_cons, exists_eq_or_imp]
      exact h1
    · intro a
      simp only [join_premise_vgrounding_maps, List.mem_cons, exists_eq_or_imp]
      exact h2 a

theorem join_or_is_union_witness :
    getType (OrLink (InheritanceLink (VariableNode "$x") (ConceptNode "Animal"))
      (InheritanceLink (VariableNode "$x") (ConceptNode "Plant"))) = AType.OR_LINK ∧
    join_premise_vgrounding_maps example_lt
      (OrLink (InheritanceLink (VariableNode "$x") (ConceptNode "Animal"))
        (InheritanceLink (VariableNode "$x") (ConceptNode "Plant")))
      [(InheritanceLink (VariableNode "$x") (ConceptNode "Animal"),
          [(VariableNode "$x", [ConceptNode "1", ConceptNode "2"])]),
       (InheritanceLink (VariableNode "$x") (ConceptNode "Plant"),
          [(VariableNode "$x", [ConceptNode "2", ConceptNode "3"])])] =
      [(VariableNode "$x", [ConceptNode "1", ConceptNode "2", ConceptNode "3"])] ∧
    ∀ a, (a ∈ HandleMap.at
        (join_premise_vgrounding_maps example_lt
          (OrLink (InheritanceLink (VariableNode "$x") (ConceptNode "Animal"))
            (InheritanceLink (VariableNode "$x") (ConceptNode "Plant")))
          [(InheritanceLink (VariableNode "$x") (ConceptNode "Animal"),
              [(VariableNode "$x", [ConceptNode "1", ConceptNode "2"])]),
           (InheritanceLink (VariableNode "$x") (ConceptNode "Plant"),
              [(VariableNode "$x", [ConceptNode "2", ConceptNode "3"])])])
        (VariableNode "$x") ↔
      ∃ e ∈ [(InheritanceLink (VariableNode "$x") (ConceptNode "Animal"),
              [(VariableNode "$x", [ConceptNode "1", ConceptNode "2"])]),
           (InheritanceLink (VariableNode "$x") (ConceptNode "Plant"),
              [(VariableNode "$x", [ConceptNode "2", ConceptNode "3"])])],
        a ∈ HandleMap.at e.2 (VariableNode "$x")) :=
  ⟨by decide, by decide,
    (join_or_is_union example_lt _ _ (by decide) (by decide) (VariableNode "$x")).2⟩

theorem join_var_and (lt : Handle → Handle → Bool) (ll : Handle)
    (hand : getType ll = AType.AND_LINK) (result : VarMultimap) (key : Handle)
    (vals : UnorderedHandleSet) :
    join_var lt ll result key vals =
      HandleMap.set lt result key (common_vals (HandleMap.at result key) vals) := by
  simp [join_var, hand]

theorem and_inner (lt : Handle → Handle → Bool) (ll : Handle)
    (hand : getType ll = AType.AND_LINK) (v : Handle) (vg : VarMultimap)
    (hwf : HandleMap.WF vg) (result : VarMultimap) :
    HandleMap.find? (vg.foldl (fun r e => join_var lt ll r e.1 e.2) result) v =
      match HandleMap.find? vg v with
      | none => HandleMap.find? result v
      | some t => some (common_vals (HandleMap.at result v) t) := by
  induction vg generalizing result with
  | nil => simp [HandleMap.find?]
  | cons e vg ih =>
    obtain ⟨key, vals⟩ := e
    unfold HandleMap.WF at hwf
    rw [List.map_cons, List.nodup_cons] at hwf
    rw [List.foldl_cons, ih hwf.2, join_var_and lt ll hand]
    by_cases h : v = key
    · subst h
      rw [HandleMap.find?_eq_none vg v hwf.1]
      simp [HandleMap.find?, HandleMap.find?_set]
    · simp [HandleMap.find?, h, HandleMap.find?_set, HandleMap.at_set]

theorem and_outer (lt : Handle → Handle → Bool) (ll : Handle)
    (hand : getType ll = AType.AND_LINK) (v : Handle) (rest : HandleMap VarMultimap)
    (hwf : ∀ e ∈ rest, HandleMap.WF e.2) (result : VarMultimap) (r : UnorderedHandleSet)
    (hr : HandleMap.find? result v = some r) :
    ∃ r2, HandleMap.find? (rest.foldl
        (fun result pvg => pvg.2.foldl (fun r e => join_var lt ll r e.1 e.2) result) result)
        v = some r2 ∧
      ∀ a, (a ∈ r2 ↔ a ∈ r ∧ ∀ e ∈ rest, ∀ t, HandleMap.find? e.2 v = some t → a ∈ t) := by
  induction rest generalizing result r with
  | nil => exact ⟨r, by simpa using hr, by simp⟩
  | cons p rest ih =>
    rw [List.foldl_cons]
    have hp : HandleMap.WF p.2 := hwf p (List.mem_cons_self _ _)
    have hin := and_inner lt ll hand v p.2 hp result
    have hrest : ∀ e ∈ rest, HandleMap.WF e.2 := fun e he => hwf e (List.mem_cons_of_mem _ he)
    cases hpv : HandleMap.find? p.2 v with
    | none =>
      rw [hpv] at hin
      obtain ⟨r2, h1, h2⟩ := ih hrest _ r (hin.trans hr)
      refine ⟨r2, h1, fun a => ?_⟩
      rw [h2 a]
      simp [hpv]
    | some t =>
      rw [hpv] at hin
      obtain ⟨r2, h1, h2⟩ := ih hrest _ _ hin
      refine ⟨r2, h1, fun a => ?_⟩
      have hat : HandleMap.at result v = r := by simp [HandleMap.at, hr]
      rw [h2 a, mem_common_vals, hat]
      simp only [List.mem_cons, forall_eq_or_imp, hpv, Option.some.injEq, forall_eq']
      tauto

/-- C9 (counterexample): under an AND_LINK, the variable `$x` is bound to `{1}` by the
first child and absent from the second child, and the join maps `$x` to `{1}`, not to the
empty set. -/
theorem join_and_absent_not_empty :
    join_premise_vgrounding_maps example_lt
      (AndLink (InheritanceLink (VariableNode "$x") (ConceptNode "Animal"))
        (InheritanceLink (VariableNode "$y") (ConceptNode "Plant")))
      [(InheritanceLink (VariableNode "$x") (ConceptNode "Animal"),
          [(VariableNode "$x", [ConceptNode "1"])]),
       (InheritanceLink (VariableNode "$y") (ConceptNode "Plant"), [])] =
      [(VariableNode "$x", [ConceptNode "1"])] := by
  decide

/-- C9 (amended): for an AND_LINK connective and every map from children to
(well-formed) substitutions, every variable bound by the first child is merged to the
intersection of its value sets over the children that bind it; a child that does not
bind the variable leaves its merged set as it is. -/
theorem join_and_first_bound (lt : Handle → Handle → Bool) (logical_link : Handle)
    (child : Handle) (first : VarMultimap) (rest : HandleMap VarMultimap)
    (hand : getType logical_link = AType.AND_LINK)
    (hwf : ∀ e ∈ rest, HandleMap.WF e.2) (v : Handle) (s : UnorderedHandleSet)
    (hs : HandleMap.find? first v = some s) :
    ∃ merged,
      HandleMap.find? (join_premise_vgrounding_maps lt logical_link ((child, first) :: rest)) v =
        some merged ∧
      ∀ a, (a ∈ merged ↔
        a ∈ s ∧ ∀ e ∈ rest, ∀ t, HandleMap.find? e.2 v = some t → a ∈ t) := by
  simp only [join_premise_vgrounding_maps]
  exact and_outer lt logical_link hand v rest hwf first s hs

theorem join_and_first_bound_witness :
    getType (AndLink (InheritanceLink (VariableNode "$x") (ConceptNode "Animal"))
      (InheritanceLink (VariableNode "$x") (ConceptNode "Plant"))) = AType.AND_LINK ∧
    HandleMap.find? [(VariableNode "$x", [ConceptNode "1", ConceptNode "2"])] (VariableNode "$x") =
      some [ConceptNode "1", ConceptNode "2"] ∧
    ∃ merged,
      HandleMap.find?
        (join_premise_vgrounding_maps example_lt
          (AndLink (InheritanceLink (VariableNode "$x") (ConceptNode "Animal"))
            (InheritanceLink (VariableNode "$x") (ConceptNode "Plant")))
          ((InheritanceLink (VariableNode "$x") (ConceptNode "Animal"),
              [(VariableNode "$x", [ConceptNode "1", ConceptNode "2"])]) ::
           [(InheritanceLink (VariableNode "$x") (ConceptNode "Plant"),
              [(VariableNode "$x", [ConceptNode "2", ConceptNode "3"])]),
            (InheritanceLink (VariableNode "$y") (ConceptNode "Plant"),
              [(VariableNode "$y", [ConceptNode "3"])])]))
        (VariableNode "$x") = some merged ∧
      ∀ a, (a ∈ merged ↔
        a ∈ [ConceptNode "1", ConceptNode "2"] ∧
        ∀ e ∈ [(InheritanceLink (VariableNode "$x") (ConceptNode "Plant"),
              [(VariableNode "$x", [ConceptNode "2", ConceptNode "3"])]),
            (InheritanceLink (VariableNode "$y") (ConceptNode "Plant"),
              [(VariableNode "$y", [ConceptNode "3"])])],
          ∀ t, HandleMap.find? e.2 (VariableNode "$x") = some t → a ∈ t) :=
  ⟨by decide, by decide,
    join_and_first_bound example_lt _ _ _ _ (by decide) (by decide) (VariableNode "$x") _
      (by decide)⟩

/-- C10 (as the code behaves): under an AND_LINK, joining `{c1 -> A, c2 -> B}` with
`A = {$x -> {1}}` and `B = {$y -> {2}}` gives `{$x -> {1}, $y -> {}}`, and joining
`{c1 -> B, c2 -> A}` gives `{$x -> {}, $y -> {2}}`: the result depends on the order in
which the substitutions are merged. -/
theorem join_and_order_dependent :
    join_premise_vgrounding_maps example_lt
      (AndLink (InheritanceLink (VariableNode "$x") (ConceptNode "Animal"))
        (InheritanceLink (VariableNode "$y") (ConceptNode "Plant")))
      [(InheritanceLink (VariableNode "$x") (ConceptNode "Animal"),
          [(VariableNode "$x", [ConceptNode "1"])]),
       (InheritanceLink (VariableNode "$y") (ConceptNode "Plant"),
          [(VariableNode "$y", [ConceptNode "2"])])] =
      [(VariableNode "$x", [ConceptNode "1"]), (VariableNode "$y", [])] ∧
    join_premise_vgrounding_maps example_lt
      (AndLink (InheritanceLink (VariableNode "$x") (ConceptNode "Animal"))
        (InheritanceLink (VariableNode "$y") (ConceptNode "Plant")))
      [(InheritanceLink (VariableNode "$x") (ConceptNode "Animal"),
          [(VariableNode "$y", [ConceptNode "2"])]),
       (InheritanceLink (VariableNode "$y") (ConceptNode "Plant"),
          [(VariableNode "$x", [ConceptNode "1"])])] =
      [(VariableNode "$x", []), (VariableNode "$y", [ConceptNode "2"])] := by
  decide

/-! ## The chaining run -/

/-- C1 (as the code behaves): for the target `Inheritance($x, "Animal")`, a fresh
backward chainer and the single knowledge-base match `Inheritance("Fido", "Animal")`,
`do_chain` records `$x -> {"Fido"}` in the inference history of the target, and
`get_chaining_result` is the empty mapping; when the inference list already holds the
substitution `$x -> {"Fido"}`, the result maps `$x` to the empty set. -/
theorem do_chain_single_fact :
    (do_chain
        (facts_env (InheritanceLink (VariableNode "$x") (ConceptNode "Animal"))
          [InheritanceLink (ConceptNode "Fido") (ConceptNode "Animal")])
        3 fresh_state (InheritanceLink (VariableNode "$x") (ConceptNode "Animal"))).map
      (fun st => st._inference_history) =
      some [(InheritanceLink (VariableNode "$x") (ConceptNode "Animal"),
              [(VariableNode "$x", [ConceptNode "Fido"])])] ∧
    (do_chain
        (facts_env (InheritanceLink (VariableNode "$x") (ConceptNode "Animal"))
          [InheritanceLink (ConceptNode "Fido") (ConceptNode "Animal")])
        3 fresh_state (InheritanceLink (VariableNode "$x") (ConceptNode "Animal"))).map
      get_chaining_result = some [] ∧
    (do_chain
        (facts_env (InheritanceLink (VariableNode "$x") (ConceptNode "Animal"))
          [InheritanceLink (ConceptNode "Fido") (ConceptNode "Animal")])
        3 { fresh_state with _inference_list := [[(VariableNode "$x", [ConceptNode "Fido"])]] }
        (InheritanceLink (VariableNode "$x") (ConceptNode "Animal"))).map
      get_chaining_result = some [(VariableNode "$x", [])] := by
  refine ⟨?_, ?_, ?_⟩ <;> decide

/-! ## The loop of `do_chain`, iteration by iteration -/

theorem do_bc_cached (env : Env) (st : State) (hgoal : Handle) (subt : VarMultimap)
    (h : HandleMap.find? st._inference_history hgoal = some subt) :
    do_bc env st hgoal = (subt, st) := by
  unfold do_bc
  rw [h]

theorem do_bc_history (env : Env) (st : State) (hgoal : Handle) :
    (do_bc env st hgoal).2._inference_history = st._inference_history := by
  unfold do_bc
  split
  · rfl
  · split
    · rfl
    · split
      · dsimp only
        split <;> rfl
      · dsimp only
        split
        · split <;> rfl
        · rfl

theorem chain_step_history (env : Env) (st : State) (top : Handle) (stack : List Handle)
    (hs : st._targets_stack = top :: stack) :
    (chain_step env st)._inference_history =
      HandleMap.set env.lt st._inference_history top
        (do_bc env { st with _targets_stack := stack } top).1 := by
  unfold chain_step
  rw [hs]
  simp only
  rw [do_bc_history]

theorem chain_loop_succ (env : Env) (fuel : Nat) (st : State) :
    chain_loop env (fuel + 1) st =
      if st._targets_stack = [] then some st else chain_loop env fuel (chain_step env st) := by
  cases hs : st._targets_stack with
  | nil => simp [chain_loop, hs]
  | cons top stack => simp [chain_loop, chain_step, hs]

theorem chain_step_of_empty (env : Env) (st : State) (hs : st._targets_stack = []) :
    chain_step env st = st := by
  simp [chain_step, hs]

theorem chain_loop_eq_iterate (env : Env) (fuel : Nat) (st st2 : State)
    (h : chain_loop env fuel st = some st2) :
    st2 = (chain_step env)^[fuel] st ∧ st2._targets_stack = [] := by
  induction fuel generalizing st with
  | zero =>
    simp only [chain_loop] at h
    split at h
    · have h2 : st = st2 := by simpa using h
      subst h2
      exact ⟨rfl, by simpa using ‹st._targets_stack.isEmpty = true›⟩
    · simp at h
  | succ fuel ih =>
    rw [chain_loop_succ] at h
    by_cases hs : st._targets_stack = []
    · rw [if_pos hs] at h
      have h2 : st = st2 := by simpa using h
      subst h2
      refine ⟨?_, hs⟩
      rw [Function.iterate_succ_apply, chain_step_of_empty env st hs]
      clear ih h
      induction fuel with
      | zero => rfl
      | succ n ihn => rw [Function.iterate_succ_apply, chain_step_of_empty env st hs]; exact ihn
    · rw [if_neg hs] at h
      rw [Function.iterate_succ_apply]
      exact ih (chain_step env st) h

theorem chain_step_keeps_entry (env : Env) (st : State) (g : Handle) (subt : VarMultimap)
    (h : HandleMap.find? st._inference_history g = some subt) :
    HandleMap.find? (chain_step env st)._inference_history g = some subt := by
  cases hs : st._targets_stack with
  | nil => rw [chain_step_of_empty env st hs]; exact h
  | cons top stack =>
    rw [chain_step_history env st top stack hs, HandleMap.find?_set]
    by_cases hg : g = top
    · subst hg
      rw [if_pos rfl, do_bc_cached env { st with _targets_stack := stack } g subt h]
    · rw [if_neg hg]; exact h

theorem iterate_keeps_entry (env : Env) (g : Handle) (subt : VarMultimap) (n : Nat) (st : State)
    (h : HandleMap.find? st._inference_history g = some subt) :
    HandleMap.find? ((chain_step env)^[n] st)._inference_history g = some subt := by
  induction n generalizing st with
  | zero => exact h
  | succ n ih =>
    rw [Function.iterate_succ_apply]
    exact ih (chain_step env st) (chain_step_keeps_entry env st g subt h)

/-- C20: when the inference history holds an entry for a goal `g`, the history maps `g`
to the same substitution after every number of further iterations of the loop of
`do_chain`, and in the state in which the loop ends. -/
theorem history_entry_immutable (env : Env) (st : State) (g : Handle) (subt : VarMultimap)
    (h : HandleMap.find? st._inference_history g = some subt) :
    (∀ n, HandleMap.find? ((chain_step env)^[n] st)._inference_history g = some subt) ∧
    ∀ fuel st2, chain_loop env fuel st = some st2 →
      HandleMap.find? st2._inference_history g = some subt := by
  refine ⟨fun n => iterate_keeps_entry env g subt n st h, fun fuel st2 h2 => ?_⟩
  rw [(chain_loop_eq_iterate env fuel st st2 h2).1]
  exact iterate_keeps_entry env g subt fuel st h

theorem history_entry_immutable_witness :
    HandleMap.find?
      ({ fresh_state with
          _targets_stack := [InheritanceLink (VariableNode "$x") (ConceptNode "Animal")]
          _inference_history :=
            [(InheritanceLink (VariableNode "$x") (ConceptNode "Animal"),
              [(VariableNode "$x", [ConceptNode "Fido"])])] } : State)._inference_history
      (InheritanceLink (VariableNode "$x") (ConceptNode "Animal")) =
        some [(VariableNode "$x", [ConceptNode "Fido"])] ∧
    ∀ n, HandleMap.find?
      ((chain_step (kb_env []))^[n]
        ({ fresh_state with
          _targets_stack := [InheritanceLink (VariableNode "$x") (ConceptNode "Animal")]
          _inference_history :=
            [(InheritanceLink (VariableNode "$x") (ConceptNode "Animal"),
              [(VariableNode "$x", [ConceptNode "Fido"])])] } : State))._inference_history
      (InheritanceLink (VariableNode "$x") (ConceptNode "Animal")) =
        some [(VariableNode "$x", [ConceptNode "Fido"])] :=
  ⟨by decide, (history_entry_immutable (kb_env []) _ _ _ (by decide)).1⟩

theorem do_bc_calls_target (env : Env) (st : State) (hgoal : Handle) (c : Call)
    (hc : c ∈ do_bc_calls env st hgoal) :
    c.target = hgoal ∧ HandleMap.find? st._inference_history hgoal = none := by
  unfold do_bc_calls at hc
  split at hc
  · simp at hc
  · refine ⟨?_, by assumption⟩
    split at hc
    · simp at hc
    · split at hc
      · simp at hc
      · dsimp only at hc
        split at hc
        · simp only [List.mem_cons, List.mem_singleton, List.not_mem_nil, or_false] at hc
          rcases hc with hc | hc <;> rw [hc] <;> rfl
        · simp only [List.mem_singleton] at hc
          rw [hc]; rfl

theorem do_bc_calls_nodup (env : Env) (st : State) (hgoal : Handle) :
    (do_bc_calls env st hgoal).Nodup := by
  unfold do_bc_calls
  split
  · simp
  · split
    · simp
    · split
      · simp
      · dsimp only
        split <;> simp

theorem chain_calls_fresh (env : Env) (n : Nat) (st : State) (c : Call)
    (hc : c ∈ chain_calls env n st) :
    HandleMap.find? st._inference_history c.target = none := by
  induction n generalizing st with
  | zero => simp [chain_calls] at hc
  | succ n ih =>
    unfold chain_calls at hc
    cases hs : st._targets_stack with
    | nil => rw [hs] at hc; simp at hc
    | cons top stack =>
      rw [hs] at hc
      simp only [List.mem_append] at hc
      rcases hc with hc | hc
      · obtain ⟨h1, h2⟩ := do_bc_calls_target env _ top c hc
        rw [h1]; exact h2
      · have h3 := ih (chain_step env st) hc
        cases h4 : HandleMap.find? st._inference_history c.target with
        | none => rfl
        | some subt =>
          rw [chain_step_keeps_entry env st c.target subt h4] at h3
          exact absurd h3 (by simp)

theorem chain_calls_nodup (env : Env) (n : Nat) (st : State) :
    (chain_calls env n st).Nodup := by
  induction n generalizing st with
  | zero => simp [chain_calls]
  | succ n ih =>
    unfold chain_calls
    cases hs : st._targets_stack with
    | nil => simp
    | cons top stack =>
      simp only
      rw [List.nodup_append]
      refine ⟨do_bc_calls_nodup env _ top, ih (chain_step env st), ?_⟩
      intro c hc1 hc2
      have h1 := (do_bc_calls_target env _ top c hc1).1
      have h2 := chain_calls_fresh env n (chain_step env st) c hc2
      rw [chain_step_history env st top stack hs, HandleMap.find?_set, h1, if_pos rfl] at h2
      exact absurd h2 (by simp)

/-- C19: in every number of iterations of the loop of `do_chain`, from every state, no
call `filter_knowledge_base(g)` and no call `filter_rules(g)` is made twice, and none is
made for a goal that has a history entry at the start; `do_bc` on a goal with a history
entry returns that entry, changes nothing and makes neither call. -/
theorem memoization (env : Env) (n : Nat) (st : State) :
    (chain_calls env n st).Nodup ∧
    (∀ c ∈ chain_calls env n st, HandleMap.find? st._inference_history c.target = none) ∧
    ∀ g subt, HandleMap.find? st._inference_history g = some subt →
      do_bc env st g = (subt, st) ∧ do_bc_calls env st g = [] := by
  refine ⟨chain_calls_nodup env n st, fun c hc => chain_calls_fresh env n st c hc, ?_⟩
  intro g subt h
  refine ⟨do_bc_cached env st g subt h, ?_⟩
  unfold do_bc_calls
  rw [h]

/-- C16 (as the code behaves): when an iteration of `do_chain` pops a logical-connective
goal `g` that has free variables and no history entry while a child of `g` has no
history entry, then after the iteration `g` and its children are on the stack, and the
inference history has the entry `g -> {}` (the empty substitution that `do_bc`
returned). -/
theorem deferral_records_empty (env : Env) (st : State) (g : Handle) (stack : List Handle)
    (hs : st._targets_stack = g :: stack)
    (hnone : HandleMap.find? st._inference_history g = none)
    (hfree : (get_free_vars_in_tree g).isEmpty = false)
    (hlogical : getType g ∈ env._logical_link_types)
    (hchild : ∃ h ∈ getOutgoingSet g, HandleMap.count st._inference_history h = 0) :
    (chain_step env st)._targets_stack = (getOutgoingSet g).reverse ++ g :: stack ∧
    HandleMap.find? (chain_step env st)._inference_history g = some [] := by
  have hany : (getOutgoingSet g).any
      (fun h => decide (HandleMap.count st._inference_history h = 0)) = true := by
    rw [List.any_eq_true]
    obtain ⟨h, hmem, hc⟩ := hchild
    exact ⟨h, hmem, by simpa using hc⟩
  have hbc : do_bc env { st with _targets_stack := stack } g =
      ([], { st with _targets_stack := (getOutgoingSet g).reverse ++ g :: stack }) := by
    unfold do_bc
    simp only [hnone, hfree, hlogical, hany, if_true, Bool.false_eq_true, if_false]
  constructor
  · unfold chain_step
    rw [hs]
    simp only [hbc]
  · rw [chain_step_history env st g stack hs, HandleMap.find?_set, if_pos rfl, hbc]

theorem deferral_records_empty_witness :
    (chain_step
        (kb_env [(InheritanceLink (VariableNode "$x") (ConceptNode "Animal"),
            [InheritanceLink (ConceptNode "Fido") (ConceptNode "Animal")])])
        { fresh_state with
          _targets_stack :=
            [AndLink (InheritanceLink (VariableNode "$x") (ConceptNode "Animal"))
              (InheritanceLink (VariableNode "$y") (ConceptNode "Plant"))] })._targets_stack =
      (getOutgoingSet (AndLink (InheritanceLink (VariableNode "$x") (ConceptNode "Animal"))
          (InheritanceLink (VariableNode "$y") (ConceptNode "Plant")))).reverse ++
        AndLink (InheritanceLink (VariableNode "$x") (ConceptNode "Animal"))
          (InheritanceLink (VariableNode "$y") (ConceptNode "Plant")) :: [] ∧
    HandleMap.find?
      (chain_step
        (kb_env [(InheritanceLink (VariableNode "$x") (ConceptNode "Animal"),
            [InheritanceLink (ConceptNode "Fido") (ConceptNode "Animal")])])
        { fresh_state with
          _targets_stack :=
            [AndLink (InheritanceLink (VariableNode "$x") (ConceptNode "Animal"))
              (InheritanceLink (VariableNode "$y") (ConceptNode "Plant"))] })._inference_history
      (AndLink (InheritanceLink (VariableNode "$x") (ConceptNode "Animal"))
        (InheritanceLink (VariableNode "$y") (ConceptNode "Plant"))) = some [] :=
  deferral_records_empty _ _ _ [] rfl (by decide) (by decide) (by decide)
    ⟨InheritanceLink (VariableNode "$x") (ConceptNode "Animal"), by decide, by decide⟩

/-- C17 (as the code behaves): for the target
`And(Inheritance($x, "Animal"), Inheritance($x, "Pet"))`, a fresh backward chainer and a
knowledge base that matches each child with `"Fido"`, `do_chain` terminates, both
children have the history entry `$x -> {"Fido"}`, and the history entry of the target
is the empty substitution, while the join of the children's entries is
`$x -> {"Fido"}`. -/
theorem recurring_goal_not_joined :
    (do_chain
        (kb_env [(InheritanceLink (VariableNode "$x") (ConceptNode "Animal"),
            [InheritanceLink (ConceptNode "Fido") (ConceptNode "Animal")]),
          (InheritanceLink (VariableNode "$x") (ConceptNode "Pet"),
            [InheritanceLink (ConceptNode "Fido") (ConceptNode "Pet")])])
        6 fresh_state
        (AndLink (InheritanceLink (VariableNode "$x") (ConceptNode "Animal"))
          (InheritanceLink (VariableNode "$x") (ConceptNode "Pet")))).map
      (fun st => st._inference_history) =
      some [(AndLink (InheritanceLink (VariableNode "$x") (ConceptNode "Animal"))
              (InheritanceLink (VariableNode "$x") (ConceptNode "Pet")), []),
            (InheritanceLink (VariableNode "$x") (ConceptNode "Pet"),
              [(VariableNode "$x", [ConceptNode "Fido"])]),
            (InheritanceLink (VariableNode "$x") (ConceptNode "Animal"),
              [(VariableNode "$x", [ConceptNode "Fido"])])] ∧
    join_premise_vgrounding_maps example_lt
      (AndLink (InheritanceLink (VariableNode "$x") (ConceptNode "Animal"))
        (InheritanceLink (VariableNode "$x") (ConceptNode "Pet")))
      [(InheritanceLink (VariableNode "$x") (ConceptNode "Animal"),
          [(VariableNode "$x", [ConceptNode "Fido"])]),
       (InheritanceLink (VariableNode "$x") (ConceptNode "Pet"),
          [(VariableNode "$x", [ConceptNode "Fido"])])] =
      [(VariableNode "$x", [ConceptNode "Fido"])] := by
  constructor <;> decide

/-- C18 (as the code behaves): for the target
`And(Inheritance($x, "Animal"), Inheritance($y, "Plant"))`, a fresh backward chainer and
a knowledge base with the ground matches `Inheritance("Fido", "Animal")` and
`Inheritance("Rose", "Plant")`, `do_chain` terminates with the history entry of the
target empty and with the empty mapping as chaining result: it binds neither `$x`
nor `$y`. -/
theorem conjunction_result_empty :
    (do_chain
        (kb_env [(InheritanceLink (VariableNode "$x") (ConceptNode "Animal"),
            [InheritanceLink (ConceptNode "Fido") (ConceptNode "Animal")]),
          (InheritanceLink (VariableNode "$y") (ConceptNode "Plant"),
            [InheritanceLink (ConceptNode "Rose") (ConceptNode "Plant")])])
        6 fresh_state
        (AndLink (InheritanceLink (VariableNode "$x") (ConceptNode "Animal"))
          (InheritanceLink (VariableNode "$y") (ConceptNode "Plant")))).map
      (fun st =>
        HandleMap.find? st._inference_history
          (AndLink (InheritanceLink (VariableNode "$x") (ConceptNode "Animal"))
            (InheritanceLink (VariableNode "$y") (ConceptNode "Plant")))) =
      some (some []) ∧
    (do_chain
        (kb_env [(InheritanceLink (VariableNode "$x") (ConceptNode "Animal"),
            [InheritanceLink (ConceptNode "Fido") (ConceptNode "Animal")]),
          (InheritanceLink (VariableNode "$y") (ConceptNode "Plant"),
            [InheritanceLink (ConceptNode "Rose") (ConceptNode "Plant")])])
        6 fresh_state
        (AndLink (InheritanceLink (VariableNode "$x") (ConceptNode "Animal"))
          (InheritanceLink (VariableNode "$y") (ConceptNode "Plant")))).map
      get_chaining_result = some [] := by
  constructor <;> decide

/-! ## The grounding chase -/

/-- C15: for every goal that has no entry in the inference history,
`ground_target_vars` returns the empty mapping, whatever the inference list contains
(and whatever the depth allowed to the chase). -/
theorem ground_target_vars_no_entry (lt : Handle → Handle → Bool) (fuel : Nat)
    (history : HandleMap VarMultimap) (hgoal : Handle) (inference_list : List VarMultimap)
    (h : HandleMap.find? history hgoal = none) :
    ground_target_vars lt fuel history hgoal inference_list = some [] := by
  simp [ground_target_vars, HandleMap.count, h]

theorem ground_target_vars_no_entry_witness :
    HandleMap.find? ([] : HandleMap VarMultimap)
      (InheritanceLink (VariableNode "$x") (ConceptNode "Animal")) = none ∧
    ground_target_vars example_lt 0 []
      (InheritanceLink (VariableNode "$x") (ConceptNode "Animal"))
      [[(VariableNode "$x", [VariableNode "$y"])], [(VariableNode "$y", [VariableNode "$x"])]] =
      some [] :=
  ⟨rfl, ground_target_vars_no_entry example_lt 0 [] _ _ rfl⟩

/-- C13 (as the code behaves): for a goal `Inheritance($x, "Animal")` with a history
entry and the inference list `[{$x -> {"dog"}}]`, `ground_target_vars` returns
`$x -> {}`: the non-variable grounding `"dog"` is dropped. -/
theorem ground_target_vars_drops_ground :
    ground_target_vars example_lt 3
      [(InheritanceLink (VariableNode "$x") (ConceptNode "Animal"),
        [(VariableNode "$x", [ConceptNode "dog"])])]
      (InheritanceLink (VariableNode "$x") (ConceptNode "Animal"))
      [[(VariableNode "$x", [ConceptNode "dog"])]] =
      some [(VariableNode "$x", [])] := by
  decide

/-! ## Conjunction over children that all bind the variable -/

/-- C11: when every child substitution binds the variable `v`, the AND_LINK join maps `v`
to exactly the intersection of the children's value sets for `v`. -/
theorem join_and_all_bound (lt : Handle → Handle → Bool) (logical_link : Handle)
    (child : Handle) (first : VarMultimap) (rest : HandleMap VarMultimap)
    (hand : getType logical_link = AType.AND_LINK)
    (hwf : ∀ e ∈ rest, HandleMap.WF e.2) (v : Handle)
    (hall : ∀ e ∈ (child, first) :: rest, (HandleMap.find? e.2 v).isSome = true) :
    ∃ merged,
      HandleMap.find? (join_premise_vgrounding_maps lt logical_link ((child, first) :: rest)) v =
        some merged ∧
      ∀ a, (a ∈ merged ↔ ∀ e ∈ (child, first) :: rest, a ∈ HandleMap.at e.2 v) := by
  have hfirst := hall (child, first) (List.mem_cons_self _ _)
  obtain ⟨s, hs⟩ := Option.isSome_iff_exists.1 hfirst
  obtain ⟨merged, h1, h2⟩ := and_outer lt logical_link hand v rest hwf first s hs
  refine ⟨merged, by simpa only [join_premise_vgrounding_maps] using h1, fun a => ?_⟩
  rw [h2 a]
  simp only [List.mem_cons, forall_eq_or_imp]
  have hat : HandleMap.at first v = s := by simp [HandleMap.at, hs]
  rw [hat]
  constructor
  · rintro ⟨ha, hr⟩
    refine ⟨ha, fun e he => ?_⟩
    obtain ⟨t, ht⟩ := Option.isSome_iff_exists.1 (hall e (List.mem_cons_of_mem _ he))
    have hate : HandleMap.at e.2 v = t := by simp [HandleMap.at, ht]
    rw [hate]
    exact hr e he t ht
  · rintro ⟨ha, hr⟩
    refine ⟨ha, fun e he t ht => ?_⟩
    have hate : HandleMap.at e.2 v = t := by simp [HandleMap.at, ht]
    rw [← hate]
    exact hr e he

theorem join_and_all_bound_witness :
    join_premise_vgrounding_maps example_lt
      (AndLink (InheritanceLink (VariableNode "$x") (ConceptNode "Animal"))
        (InheritanceLink (VariableNode "$x") (ConceptNode "Plant")))
      ((InheritanceLink (VariableNode "$x") (ConceptNode "Animal"),
          [(VariableNode "$x", [ConceptNode "1", ConceptNode "2"])]) ::
        [(InheritanceLink (VariableNode "$x") (ConceptNode "Plant"),
          [(VariableNode "$x", [ConceptNode "2", ConceptNode "3"])])]) =
      [(VariableNode "$x", [ConceptNode "2"])] ∧
    ∃ merged,
      HandleMap.find?
        (join_premise_vgrounding_maps example_lt
          (AndLink (InheritanceLink (VariableNode "$x") (ConceptNode "Animal"))
            (InheritanceLink (VariableNode "$x") (ConceptNode "Plant")))
          ((InheritanceLink (VariableNode "$x") (ConceptNode "Animal"),
              [(VariableNode "$x", [ConceptNode "1", ConceptNode "2"])]) ::
            [(InheritanceLink (VariableNode "$x") (ConceptNode "Plant"),
              [(VariableNode "$x", [ConceptNode "2", ConceptNode "3"])])]))
        (VariableNode "$x") = some merged ∧
      ∀ a, (a ∈ merged ↔
        ∀ e ∈ (InheritanceLink (VariableNode "$x") (ConceptNode "Animal"),
              [(VariableNode "$x", [ConceptNode "1", ConceptNode "2"])]) ::
            [(InheritanceLink (VariableNode "$x") (ConceptNode "Plant"),
              [(VariableNode "$x", [ConceptNode "2", ConceptNode "3"])])],
          a ∈ HandleMap.at e.2 (VariableNode "$x")) :=
  ⟨by decide,
    join_and_all_bound example_lt _ _ _ _ (by decide) (by decide) (VariableNode "$x")
      (by decide)⟩

/-! ## Chasing through an acyclic inference list -/

theorem chase_inner (il : List VarMultimap) (fuel : Nat) (ok : Handle → Prop)
    (ih : ∀ h results, ok h → ∃ res, chase_var_values il fuel h results = some res ∧
      ∀ a, (a ∈ res ↔ a ∈ results ∨ Grounds il h a))
    (g : List Handle) (results : UnorderedHandleSet)
    (hg : ∀ h ∈ g, getType h = AType.VARIABLE_NODE → ok h) :
    ∃ res,
      g.foldlM
        (fun results h =>
          if getType h = AType.VARIABLE_NODE then chase_var_values il fuel h results
          else some (UnorderedHandleSet.emplace results h))
        results = some res ∧
      ∀ a, (a ∈ res ↔ a ∈ results ∨
        ∃ h ∈ g, (getType h ≠ AType.VARIABLE_NODE ∧ a = h) ∨
          (getType h = AType.VARIABLE_NODE ∧ Grounds il h a)) := by
  induction g generalizing results with
  | nil => exact ⟨results, rfl, by simp⟩
  | cons h g ihg =>
    have hg2 : ∀ h2 ∈ g, getType h2 = AType.VARIABLE_NODE → ok h2 :=
      fun h2 hm => hg h2 (List.mem_cons_of_mem _ hm)
    by_cases hv : getType h = AType.VARIABLE_NODE
    · obtain ⟨r1, e1, m1⟩ := ih h results (hg h (List.mem_cons_self _ _) hv)
      obtain ⟨res, e2, m2⟩ := ihg r1 hg2
      refine ⟨res, ?_, fun a => ?_⟩
      · rw [List.foldlM_cons, if_pos hv, e1]
        exact e2
      · rw [m2 a, m1 a]
        simp only [List.mem_cons, exists_eq_or_imp, hv, not_true_eq_false, false_and, true_and,
          false_or, or_assoc, ne_eq]
    · obtain ⟨res, e2, m2⟩ := ihg (UnorderedHandleSet.emplace results h) hg2
      refine ⟨res, ?_, fun a => ?_⟩
      · rw [List.foldlM_cons, if_neg hv]
        exact e2
      · rw [m2 a, UnorderedHandleSet.mem_emplace]
        simp only [List.mem_cons, exists_eq_or_imp, hv, not_false_eq_true, true_and, false_and,
          or_false, or_assoc, ne_eq]

theorem chase_outer (il : List VarMultimap) (fuel : Nat) (ok : Handle → Prop)
    (ih : ∀ h results, ok h → ∃ res, chase_var_values il fuel h results = some res ∧
      ∀ a, (a ∈ res ↔ a ∈ results ∨ Grounds il h a))
    (hvar : Handle) (l : List VarMultimap) (results : UnorderedHandleSet)
    (hl : ∀ vgm ∈ l, ∀ s, HandleMap.find? vgm hvar = some s →
      ∀ h ∈ s, getType h = AType.VARIABLE_NODE → ok h) :
    ∃ res,
      l.foldlM
        (fun results vgm =>
          match HandleMap.find? vgm hvar with
          | none => some results
          | some groundings =>
              groundings.foldlM
                (fun results h =>
                  if getType h = AType.VARIABLE_NODE then chase_var_values il fuel h results
                  else some (UnorderedHandleSet.emplace results h))
                results)
        results = some res ∧
      ∀ a, (a ∈ res ↔ a ∈ results ∨
        ∃ vgm ∈ l, ∃ s, HandleMap.find? vgm hvar = some s ∧
          ∃ h ∈ s, (getType h ≠ AType.VARIABLE_NODE ∧ a = h) ∨
            (getType h = AType.VARIABLE_NODE ∧ Grounds il h a)) := by
  induction l generalizing results with
  | nil => exact ⟨results, rfl, by simp⟩
  | cons vgm l ihl =>
    have hl2 : ∀ vgm2 ∈ l, ∀ s, HandleMap.find? vgm2 hvar = some s →
        ∀ h ∈ s, getType h = AType.VARIABLE_NODE → ok h :=
      fun vgm2 hm => hl vgm2 (List.mem_cons_of_mem _ hm)
    cases hf : HandleMap.find? vgm hvar with
    | none =>
      obtain ⟨res, e2, m2⟩ := ihl results hl2
      refine ⟨res, ?_, fun a => ?_⟩
      · rw [List.foldlM_cons, hf]
        exact e2
      · rw [m2 a]
        simp [hf]
    | some s =>
      obtain ⟨r1, e1, m1⟩ :=
        chase_inner il fuel ok ih s results (hl vgm (List.mem_cons_self _ _) s hf)
      obtain ⟨res, e2, m2⟩ := ihl r1 hl2
      refine ⟨res, ?_, fun a => ?_⟩
      · rw [List.foldlM_cons, hf]
        simp only
        rw [e1]
        exact e2
      · rw [m2 a, m1 a]
        simp only [List.mem_cons, exists_eq_or_imp, hf, Option.some.injEq, exists_eq_left',
          or_assoc]

theorem chase_spec (il : List VarMultimap) (rank : Handle → Nat) (hacyc : Acyclic il rank)
    (fuel : Nat) (hvar : Handle) (results : UnorderedHandleSet) (hfuel : rank hvar < fuel) :
    ∃ res, chase_var_values il fuel hvar results = some res ∧
      ∀ a, (a ∈ res ↔ a ∈ results ∨ Grounds il hvar a) := by
  induction fuel generalizing hvar results with
  | zero => exact absurd hfuel (Nat.not_lt_zero _)
  | succ fuel ih =>
    obtain ⟨res, e, m⟩ :=
      chase_outer il fuel (fun h => rank h < fuel) (fun h results hh => ih h results hh)
        hvar il results
        (fun vgm hvgm s hs h hh hv =>
          Nat.lt_of_lt_of_le (hacyc hvar h ⟨vgm, hvgm, s, hs, hh⟩ hv) (Nat.lt_succ_iff.1 hfuel))
    refine ⟨res, ?_, fun a => ?_⟩
    · unfold chase_var_values
      exact e
    · rw [m a]
      constructor
      · rintro (h | ⟨vgm, hvgm, s, hs, h, hh, hc⟩)
        · exact Or.inl h
        · rcases hc with ⟨hn, rfl⟩ | ⟨hv, hgr⟩
          · exact Or.inr (Grounds.direct ⟨vgm, hvgm, s, hs, hh⟩ hn)
          · exact Or.inr (Grounds.step ⟨vgm, hvgm, s, hs, hh⟩ hv hgr)
      · rintro (h | hgr)
        · exact Or.inl h
        · right
          cases hgr with
          | direct hb hn =>
            obtain ⟨vgm, hvgm, s, hs, hh⟩ := hb
            exact ⟨vgm, hvgm, s, hs, _, hh, Or.inl ⟨hn, rfl⟩⟩
          | step hb hv hgr2 =>
            obtain ⟨vgm, hvgm, s, hs, hh⟩ := hb
            exact ⟨vgm, hvgm, s, hs, _, hh, Or.inr ⟨hv, hgr2⟩⟩

theorem chain_list_acyclic : Acyclic chain_list chain_rank := by
  intro u h hb hv
  obtain ⟨vgm, hvgm, s, hs, hh⟩ := hb
  simp only [chain_list, List.mem_cons, List.mem_singleton, List.not_mem_nil, or_false] at hvgm
  rcases hvgm with rfl | rfl
  · by_cases hu : u = VariableNode "$x"
    · subst hu
      simp only [HandleMap.find?, if_true, Option.some.injEq] at hs
      subst hs
      simp only [List.mem_singleton] at hh
      subst hh
      decide
    · simp [HandleMap.find?, hu] at hs
  · by_cases hu : u = VariableNode "$y"
    · subst hu
      simp only [HandleMap.find?, if_true, Option.some.injEq] at hs
      subst hs
      simp only [List.mem_singleton] at hh
      subst hh
      exact absurd hv (by decide)
    · simp [HandleMap.find?, hu] at hs

theorem chase_cycle_none (fuel : Nat) :
    ∀ results, chase_var_values cycle_list fuel (VariableNode "$x") results = none ∧
      chase_var_values cycle_list fuel (VariableNode "$y") results = none := by
  induction fuel with
  | zero => intro results; exact ⟨rfl, rfl⟩
  | succ fuel ih =>
    intro results
    constructor
    · have h := (ih results).2
      unfold chase_var_values
      simp only [cycle_list, List.foldlM_cons, HandleMap.find?, if_true, List.foldlM_nil]
      have hv : getType (VariableNode "$y") = AType.VARIABLE_NODE := rfl
      rw [if_pos hv]
      simp only [cycle_list] at h
      rw [h]
      rfl
    · have h := (ih results).1
      unfold chase_var_values
      have hne : ¬ VariableNode "$y" = VariableNode "$x" := by decide
      simp only [cycle_list, List.foldlM_cons, HandleMap.find?, if_true, List.foldlM_nil, hne,
        if_false]
      have hv : getType (VariableNode "$x") = AType.VARIABLE_NODE := rfl
      simp only [cycle_list] at h
      simp only [pure, bind, Option.bind, if_pos hv, h]

/-- C14 (counterexample): for the inference list with `$x -> {$y}` and `$y -> {$x}`,
no recursion depth suffices for `chase_var_values` to return on `$x`: the chase does not
terminate. -/
theorem chase_cycle_never_returns :
    ¬ ∃ fuel res, chase_var_values cycle_list fuel (VariableNode "$x") [] = some res := by
  rintro ⟨fuel, res, h⟩
  rw [(chase_cycle_none fuel []).1] at h
  exact absurd h (by simp)

/-- C14 (amended): `chase_var_values` terminates for every inference list whose variable
bindings are acyclic: with recursion depth above the rank of the variable it returns,
and its results are the given results together with the non-variable atoms reachable
from the variable. -/
theorem chase_terminates_acyclic (inference_list : List VarMultimap) (rank : Handle → Nat)
    (hacyc : Acyclic inference_list rank) (hvar : Handle) (results : UnorderedHandleSet)
    (fuel : Nat) (hfuel : rank hvar < fuel) :
    ∃ res, chase_var_values inference_list fuel hvar results = some res ∧
      ∀ a, (a ∈ res ↔ a ∈ results ∨ Grounds inference_list hvar a) :=
  chase_spec inference_list rank hacyc fuel hvar results hfuel

theorem chase_terminates_acyclic_witness :
    chase_var_values chain_list 2 (VariableNode "$x") [] = some [ConceptNode "dog"] ∧
    ∃ res, chase_var_values chain_list 2 (VariableNode "$x") [] = some res ∧
      ∀ a, (a ∈ res ↔ a ∈ ([] : UnorderedHandleSet) ∨ Grounds chain_list (VariableNode "$x") a) :=
  ⟨by decide,
    chase_terminates_acyclic chain_list chain_rank chain_list_acyclic (VariableNode "$x") [] 2
      (by decide)⟩

/-! ## `ground_target_vars` on an acyclic inference list -/

theorem HandleMap.find?_of_mem {V : Type} (m : HandleMap V) (hwf : HandleMap.WF m)
    (k : Handle) (v : V) (h : (k, v) ∈ m) : HandleMap.find? m k = some v := by
  induction m with
  | nil => simp at h
  | cons e m ih =>
    obtain ⟨k2, v2⟩ := e
    unfold HandleMap.WF at hwf
    rw [List.map_cons, List.nodup_cons] at hwf
    rcases List.mem_cons.1 h with hhead | htail
    · injection hhead with h1 h2
      subst h1; subst h2
      simp [HandleMap.find?]
    · have hmem : (k, v).1 ∈ m.map Prod.fst := List.mem_map_of_mem Prod.fst htail
      have hne : ¬ k = k2 := by
        intro e
        subst e
        exact hwf.1 hmem
      simp only [HandleMap.find?, hne, if_false]
      exact ih hwf.2 htail

theorem HandleMap.mem_of_find? {V : Type} (m : HandleMap V) (k : Handle) (v : V)
    (h : HandleMap.find? m k = some v) : (k, v) ∈ m := by
  induction m with
  | nil => simp [HandleMap.find?] at h
  | cons e m ih =>
    obtain ⟨k2, v2⟩ := e
    by_cases hk : k = k2
    · subst hk
      simp only [HandleMap.find?, if_true, Option.some.injEq] at h
      subst h
      exact List.mem_cons_self _ _
    · simp only [HandleMap.find?, hk, if_false] at h
      exact List.mem_cons_of_mem _ (ih h)

theorem rank_le_sum (rank : Handle → Nat) (l : List Handle) (u : Handle) (hu : u ∈ l) :
    rank u ≤ (l.map rank).sum := by
  induction l with
  | nil => simp at hu
  | cons h l ih =>
    rw [List.map_cons, List.sum_cons]
    rcases List.mem_cons.1 hu with hu | hu
    · subst hu; exact Nat.le_add_right _ _
    · exact Nat.le_trans (ih hu) (Nat.le_add_left _ _)

theorem ground_inner (lt : Handle → Handle → Bool) (il : List VarMultimap) (fuel : Nat)
    (hvar : Handle) (g : List Handle) (vg_map : VarMultimap)
    (hch : ∀ h ∈ g, getType h = AType.VARIABLE_NODE →
      ∃ res, chase_var_values il fuel h [] = some res ∧ ∀ a, (a ∈ res ↔ Grounds il h a)) :
    ∃ m,
      g.foldlM
        (fun vg_map h =>
          (if getType h = AType.VARIABLE_NODE then chase_var_values il fuel h []
            else some []).map fun results =>
              HandleMap.set lt vg_map hvar
                (UnorderedHandleSet.insertAll (HandleMap.at vg_map hvar) results))
        vg_map = some m ∧
      ∀ w a, (a ∈ HandleMap.at m w ↔ a ∈ HandleMap.at vg_map w ∨
        (w = hvar ∧ ∃ h ∈ g, getType h = AType.VARIABLE_NODE ∧ Grounds il h a)) := by
  induction g generalizing vg_map with
  | nil => exact ⟨vg_map, rfl, by simp⟩
  | cons h g ihg =>
    have hch2 : ∀ h2 ∈ g, getType h2 = AType.VARIABLE_NODE →
        ∃ res, chase_var_values il fuel h2 [] = some res ∧ ∀ a, (a ∈ res ↔ Grounds il h2 a) :=
      fun h2 hm => hch h2 (List.mem_cons_of_mem _ hm)
    by_cases hv : getType h = AType.VARIABLE_NODE
    · obtain ⟨r1, e1, m1⟩ := hch h (List.mem_cons_self _ _) hv
      obtain ⟨m, e2, m2⟩ := ihg
        (HandleMap.set lt vg_map hvar (UnorderedHandleSet.insertAll (HandleMap.at vg_map hvar) r1))
        hch2
      refine ⟨m, ?_, fun w a => ?_⟩
      · rw [List.foldlM_cons, if_pos hv, e1]
        exact e2
      · rw [m2 w a, HandleMap.at_set]
        by_cases hw : w = hvar
        · subst hw
          simp only [if_true, UnorderedHandleSet.mem_insertAll, m1 a, List.mem_cons,
            exists_eq_or_imp, hv, true_and, or_assoc]
        · simp [hw]
    · obtain ⟨m, e2, m2⟩ := ihg
        (HandleMap.set lt vg_map hvar (UnorderedHandleSet.insertAll (HandleMap.at vg_map hvar) []))
        hch2
      refine ⟨m, ?_, fun w a => ?_⟩
      · rw [List.foldlM_cons, if_neg hv]
        exact e2
      · rw [m2 w a, HandleMap.at_set]
        by_cases hw : w = hvar
        · subst hw
          simp only [if_true, UnorderedHandleSet.mem_insertAll, List.not_mem_nil, or_false,
            List.mem_cons, exists_eq_or_imp, hv, false_and, false_or, true_and]
        · simp [hw]

theorem ground_entries (lt : Handle → Handle → Bool) (il : List VarMultimap) (fuel : Nat)
    (varset : UnorderedHandleSet) (es : VarMultimap) (vg_map : VarMultimap)
    (hch : ∀ e ∈ es, e.1 ∈ varset → ∀ h ∈ e.2, getType h = AType.VARIABLE_NODE →
      ∃ res, chase_var_values il fuel h [] = some res ∧ ∀ a, (a ∈ res ↔ Grounds il h a)) :
    ∃ m,
      es.foldlM
        (fun vg_map it =>
          if UnorderedHandleSet.count varset it.1 = 1 then
            it.2.foldlM
              (fun vg_map h =>
                (if getType h = AType.VARIABLE_NODE then chase_var_values il fuel h []
                  else some []).map fun results =>
                    HandleMap.set lt vg_map it.1
                      (UnorderedHandleSet.insertAll (HandleMap.at vg_map it.1) results))
              vg_map
          else some vg_map)
        vg_map = some m ∧
      ∀ w a, (a ∈ HandleMap.at m w ↔ a ∈ HandleMap.at vg_map w ∨
        (w ∈ varset ∧ ∃ e ∈ es, e.1 = w ∧
          ∃ h ∈ e.2, getType h = AType.VARIABLE_NODE ∧ Grounds il h a)) := by
  induction es generalizing vg_map with
  | nil => exact ⟨vg_map, rfl, by simp⟩
  | cons e es ihe =>
    have hch2 : ∀ e2 ∈ es, e2.1 ∈ varset → ∀ h ∈ e2.2, getType h = AType.VARIABLE_NODE →
        ∃ res, chase_var_values il fuel h [] = some res ∧ ∀ a, (a ∈ res ↔ Grounds il h a) :=
      fun e2 hm => hch e2 (List.mem_cons_of_mem _ hm)
    by_cases hk : e.1 ∈ varset
    · have hc : UnorderedHandleSet.count varset e.1 = 1 := by
        simp [UnorderedHandleSet.count, hk]
      obtain ⟨m1, e1, p1⟩ :=
        ground_inner lt il fuel e.1 e.2 vg_map (hch e (List.mem_cons_self _ _) hk)
      obtain ⟨m, e2, p2⟩ := ihe m1 hch2
      refine ⟨m, ?_, fun w a => ?_⟩
      · rw [List.foldlM_cons, if_pos hc, e1]
        exact e2
      · rw [p2 w a, p1 w a]
        simp only [List.mem_cons, exists_eq_or_imp]
        constructor
        · rintro ((h | ⟨hw, hx⟩) | ⟨hw, hx⟩)
          · exact Or.inl h
          · exact Or.inr ⟨hw ▸ hk, Or.inl ⟨hw.symm, hx⟩⟩
          · exact Or.inr ⟨hw, Or.inr hx⟩
        · rintro (h | ⟨hw, ⟨hw2, hx⟩ | hx⟩)
          · exact Or.inl (Or.inl h)
          · exact Or.inl (Or.inr ⟨hw2.symm, hx⟩)
          · exact Or.inr ⟨hw, hx⟩
    · have hc : ¬ UnorderedHandleSet.count varset e.1 = 1 := by
        simp [UnorderedHandleSet.count, hk]
      obtain ⟨m, e2, p2⟩ := ihe vg_map hch2
      refine ⟨m, ?_, fun w a => ?_⟩
      · rw [List.foldlM_cons, if_neg hc]
        exact e2
      · rw [p2 w a]
        simp only [List.mem_cons, exists_eq_or_imp]
        constructor
        · rintro (h | ⟨hw, hx⟩)
          · exact Or.inl h
          · exact Or.inr ⟨hw, Or.inr hx⟩
        · rintro (h | ⟨hw, ⟨hw2, _⟩ | hx⟩)
          · exact Or.inl h
          · exact absurd (hw2 ▸ hw) hk
          · exact Or.inr ⟨hw, hx⟩

theorem ground_list (lt : Handle → Handle → Bool) (il : List VarMultimap) (fuel : Nat)
    (varset : UnorderedHandleSet) (l : List VarMultimap) (vg_map : VarMultimap)
    (hch : ∀ vgm ∈ l, ∀ e ∈ vgm, e.1 ∈ varset → ∀ h ∈ e.2, getType h = AType.VARIABLE_NODE →
      ∃ res, chase_var_values il fuel h [] = some res ∧ ∀ a, (a ∈ res ↔ Grounds il h a)) :
    ∃ m,
      l.foldlM
        (fun vg_map vgm =>
          vgm.foldlM
            (fun vg_map it =>
              if UnorderedHandleSet.count varset it.1 = 1 then
                it.2.foldlM
                  (fun vg_map h =>
                    (if getType h = AType.VARIABLE_NODE then chase_var_values il fuel h []
                      else some []).map fun results =>
                        HandleMap.set lt vg_map it.1
                          (UnorderedHandleSet.insertAll (HandleMap.at vg_map it.1) results))
                  vg_map
              else some vg_map)
            vg_map)
        vg_map = some m ∧
      ∀ w a, (a ∈ HandleMap.at m w ↔ a ∈ HandleMap.at vg_map w ∨
        (w ∈ varset ∧ ∃ vgm ∈ l, ∃ e ∈ vgm, e.1 = w ∧
          ∃ h ∈ e.2, getType h = AType.VARIABLE_NODE ∧ Grounds il h a)) := by
  induction l generalizing vg_map with
  | nil => exact ⟨vg_map, rfl, by simp⟩
  | cons vgm l ihl =>
    obtain ⟨m1, e1, p1⟩ :=
      ground_entries lt il fuel varset vgm vg_map (hch vgm (List.mem_cons_self _ _))
    obtain ⟨m, e2, p2⟩ := ihl m1 (fun vgm2 hm => hch vgm2 (List.mem_cons_of_mem _ hm))
    refine ⟨m, ?_, fun w a => ?_⟩
    · rw [List.foldlM_cons, e1]
      exact e2
    · rw [p2 w a, p1 w a]
      simp only [List.mem_cons, exists_eq_or_imp]
      constructor
      · rintro ((h | ⟨hw, hx⟩) | ⟨hw, hx⟩)
        · exact Or.inl h
        · exact Or.inr ⟨hw, Or.inl hx⟩
        · exact Or.inr ⟨hw, Or.inr hx⟩
      · rintro (h | ⟨hw, hx | hx⟩)
        · exact Or.inl (Or.inl h)
        · exact Or.inl (Or.inr ⟨hw, hx⟩)
        · exact Or.inr ⟨hw, hx⟩

/-- C12: for a goal that has a history entry and an inference list (of well-formed maps)
whose variable bindings are acyclic, with enough recursion depth `ground_target_vars`
returns, and every goal variable `v` that the list binds only to variables is mapped to
exactly the non-variable atoms reachable from `v` by following bindings of the list. -/
theorem ground_target_vars_chases (lt : Handle → Handle → Bool)
    (history : HandleMap VarMultimap) (hgoal : Handle) (inference_list : List VarMultimap)
    (rank : Handle → Nat)
    (hhist : (HandleMap.find? history hgoal).isSome = true)
    (hwf : ∀ vgm ∈ inference_list, HandleMap.WF vgm)
    (hacyc : Acyclic inference_list rank)
    (v : Handle) (hv : v ∈ find_variables hgoal [])
    (honly : ∀ h, Binds inference_list v h → getType h = AType.VARIABLE_NODE) :
    ∃ fuel0, ∀ fuel, fuel0 ≤ fuel →
      ∃ res, ground_target_vars lt fuel history hgoal inference_list = some res ∧
        ∀ a, (a ∈ HandleMap.at res v ↔ Grounds inference_list v a) := by
  refine ⟨((find_variables hgoal []).map rank).sum, fun fuel hf => ?_⟩
  have hch : ∀ vgm ∈ inference_list, ∀ e ∈ vgm, e.1 ∈ find_variables hgoal [] →
      ∀ h ∈ e.2, getType h = AType.VARIABLE_NODE →
      ∃ res, chase_var_values inference_list fuel h [] = some res ∧
        ∀ a, (a ∈ res ↔ Grounds inference_list h a) := by
    intro vgm hvgm e he hk h hh hvar
    have hb : Binds inference_list e.1 h :=
      ⟨vgm, hvgm, e.2, HandleMap.find?_of_mem vgm (hwf vgm hvgm) e.1 e.2 he, hh⟩
    have hlt : rank h < fuel :=
      Nat.lt_of_lt_of_le (hacyc _ _ hb hvar) (Nat.le_trans (rank_le_sum rank _ _ hk) hf)
    obtain ⟨res, e1, m1⟩ := chase_spec inference_list rank hacyc fuel h [] hlt
    exact ⟨res, e1, fun a => by rw [m1 a]; simp⟩
  obtain ⟨m, e, p⟩ :=
    ground_list lt inference_list fuel (find_variables hgoal []) inference_list [] hch
  refine ⟨m, ?_, fun a => ?_⟩
  · have hc : ¬ HandleMap.count history hgoal = 0 := by
      simp [HandleMap.count, hhist]
    unfold ground_target_vars
    rw [if_neg hc]
    exact e
  · rw [p v a]
    constructor
    · rintro (h | ⟨_, vgm, hvgm, e, he, hk, h, hh, hvar, hgr⟩)
      · simp [HandleMap.at, HandleMap.find?] at h
      · subst hk
        exact Grounds.step
          ⟨vgm, hvgm, e.2, HandleMap.find?_of_mem vgm (hwf vgm hvgm) e.1 e.2 he, hh⟩ hvar hgr
    · intro hgr
      right
      refine ⟨hv, ?_⟩
      cases hgr with
      | direct hb hn => exact absurd (honly _ hb) hn
      | step hb hvar hgr2 =>
        obtain ⟨vgm, hvgm, s, hs, hh⟩ := hb
        exact ⟨vgm, hvgm, (v, s), HandleMap.mem_of_find? vgm v s hs, rfl, _, hh, hvar, hgr2⟩

theorem chain_list_binds_x (h : Handle) (hb : Binds chain_list (VariableNode "$x") h) :
    getType h = AType.VARIABLE_NODE := by
  obtain ⟨vgm, hvgm, s, hs, hh⟩ := hb
  simp only [chain_list, List.mem_cons, List.mem_singleton, List.not_mem_nil, or_false] at hvgm
  rcases hvgm with rfl | rfl
  · simp only [HandleMap.find?, if_true, Option.some.injEq] at hs
    subst hs
    simp only [List.mem_singleton] at hh
    subst hh
    rfl
  · have hne : ¬ VariableNode "$x" = VariableNode "$y" := by decide
    simp [HandleMap.find?, hne] at hs

theorem ground_target_vars_chases_witness :
    ground_target_vars example_lt 1
      [(InheritanceLink (VariableNode "$x") (ConceptNode "Animal"), [])]
      (InheritanceLink (VariableNode "$x") (ConceptNode "Animal")) chain_list =
      some [(VariableNode "$x", [ConceptNode "dog"])] ∧
    ∃ fuel0, ∀ fuel, fuel0 ≤ fuel →
      ∃ res, ground_target_vars example_lt fuel
          [(InheritanceLink (VariableNode "$x") (ConceptNode "Animal"), [])]
          (InheritanceLink (VariableNode "$x") (ConceptNode "Animal")) chain_list = some res ∧
        ∀ a, (a ∈ HandleMap.at res (VariableNode "$x") ↔
          Grounds chain_list (VariableNode "$x") a) :=
  ⟨by decide,
    ground_target_vars_chases example_lt _ _ chain_list chain_rank (by decide) (by decide)
      chain_list_acyclic (VariableNode "$x") (by decide) chain_list_binds_x⟩

/-! ## The rule filter -/

/-- C21: `filter_rules(goal)` keeps the rules of the rule set in their order, each as
often as the rule set has it; a rule is returned exactly when it is in the rule set and
one of its implicand outputs unifies with the goal from an empty map; a rule without
outputs is not returned. -/
theorem filter_rules_exact (env : Env) (goal : Handle) :
    List.Sublist (filter_rules env goal) env._rules_set ∧
    (∀ r, r ∈ filter_rules env goal ↔
      r ∈ env._rules_set ∧ ∃ h ∈ r.get_implicand, (unify env.lt h goal []).1 = true) ∧
    (∀ r, (∃ h ∈ r.get_implicand, (unify env.lt h goal []).1 = true) →
      (filter_rules env goal).count r = env._rules_set.count r) ∧
    ∀ r, r.get_implicand = [] → r ∉ filter_rules env goal := by
  have hmem : ∀ r, r ∈ filter_rules env goal ↔
      r ∈ env._rules_set ∧ ∃ h ∈ r.get_implicand, (unify env.lt h goal []).1 = true := by
    intro r
    simp only [filter_rules, List.mem_filter, List.any_eq_true]
  refine ⟨List.filter_sublist _, hmem, ?_, ?_⟩
  · intro r hr
    unfold filter_rules
    rw [List.count_filter]
    simpa only [List.any_eq_true] using hr
  · intro r hr hin
    obtain ⟨_, h, hh, _⟩ := (hmem r).1 hin
    rw [hr] at hh
    exact absurd hh (List.not_mem_nil _)

/-! ## The result of `unify` and its map -/

mutual
theorem unify_flag_aux (lt : Handle → Handle → Bool) :
    ∀ (p c : Handle) (m : VarMap), (unify lt p c m).1 = !(unify lt p c m).2.isEmpty
  | .node t name, c, m => by
      by_cases ht : t = AType.VARIABLE_NODE <;> simp [unify, getType, ht]
  | .link t out, .node t2 name, m => by
      by_cases ht : t = AType.VARIABLE_NODE <;> simp [unify, getType, ht]
  | .link t out, .link t2 out2, m => by
      by_cases h1 : t = t2
      · by_cases h2 : out.length = out2.length
        · have h3 := unify_outgoing_flag_aux lt out out2 m
          cases h4 : unify_outgoing lt out out2 m with
          | mk b r =>
            rw [h4] at h3
            cases b with
            | false =>
              have hr : r = [] := h3 rfl
              simp [unify, h1, h2, h4, hr]
            | true => simp [unify, h1, h2, h4]
        · simp [unify, h1, h2]
      · simp [unify, h1]
theorem unify_outgoing_flag_aux (lt : Handle → Handle → Bool) :
    ∀ (ps cs : List Handle) (m : VarMap),
      (unify_outgoing lt ps cs m).1 = false → (unify_outgoing lt ps cs m).2 = []
  | [], cs, m => by simp [unify_outgoing]
  | p :: ps, [], m => by simp [unify_outgoing]
  | p :: ps, c :: cs, m => by
      by_cases hv : getType p = AType.VARIABLE_NODE
      · simp only [unify_outgoing, hv, if_true]
        exact unify_outgoing_flag_aux lt ps cs _
      · have h3 := unify_flag_aux lt p c m
        cases h4 : unify lt p c m with
        | mk b r =>
          rw [h4] at h3
          cases b with
          | false =>
            have hr : r = [] := by simpa using h3
            simp [unify_outgoing, hv, h4, hr]
          | true =>
            simp only [unify_outgoing, hv, if_false, h4]
            exact unify_outgoing_flag_aux lt ps cs r
end

/-- C29: for every pattern, concrete atom and initial map, `unify` returns true exactly
when the map is non-empty after the call; a failed unification leaves the map empty;
from an empty map a pattern without variable nodes never unifies. -/
theorem unify_true_iff_nonempty (lt : Handle → Handle → Bool) (p c : Handle) (m : VarMap) :
    ((unify lt p c m).1 = true ↔ (unify lt p c m).2 ≠ []) ∧
    ((unify lt p c m).1 = false → (unify lt p c m).2 = []) ∧
    (has_variable_node p = false → (unify lt p c []).1 = false) := by
  have h := unify_flag_aux lt p c m
  refine ⟨?_, ?_, ?_⟩
  · rw [h]
    cases (unify lt p c m).2 <;> simp
  · rw [h]
    cases (unify lt p c m).2 <;> simp
  · intro hg
    rw [unify_ground_aux lt p c hg]

/-! ## Goals that need no search -/

/-- C26: for every goal that has no free variables and no history entry, `do_bc`
returns the empty substitution, leaves the stack (and every other member) unchanged,
and calls neither the knowledge-base query nor the rule filter. -/
theorem no_free_vars_vacuous (env : Env) (st : State) (g : Handle)
    (hnone : HandleMap.find? st._inference_history g = none)
    (hfree : (get_free_vars_in_tree g).isEmpty = true) :
    do_bc env st g = ([], st) ∧ do_bc_calls env st g = [] := by
  constructor
  · unfold do_bc
    simp only [hnone, hfree, if_true]
  · unfold do_bc_calls
    simp only [hnone, hfree, if_true]

theorem no_free_vars_vacuous_witness :
    HandleMap.find? fresh_state._inference_history
      (InheritanceLink (ConceptNode "Fido") (ConceptNode "Animal")) = none ∧
    (get_free_vars_in_tree (InheritanceLink (ConceptNode "Fido") (ConceptNode "Animal"))).isEmpty =
      true ∧
    do_bc (facts_env (InheritanceLink (ConceptNode "Fido") (ConceptNode "Animal"))
        [InheritanceLink (ConceptNode "Fido") (ConceptNode "Animal")]) fresh_state
      (InheritanceLink (ConceptNode "Fido") (ConceptNode "Animal")) = ([], fresh_state) ∧
    do_bc_calls (facts_env (InheritanceLink (ConceptNode "Fido") (ConceptNode "Animal"))
        [InheritanceLink (ConceptNode "Fido") (ConceptNode "Animal")]) fresh_state
      (InheritanceLink (ConceptNode "Fido") (ConceptNode "Animal")) = [] :=
  ⟨by decide, by decide,
    no_free_vars_vacuous _ fresh_state _ (by decide) (by decide)⟩

/-! ## Conjunction: keys and rejected values -/

theorem and_outer_bounds (lt : Handle → Handle → Bool) (ll : Handle)
    (hand : getType ll = AType.AND_LINK) (v : Handle) (rest : HandleMap VarMultimap)
    (hwf : ∀ e ∈ rest, HandleMap.WF e.2) (result : VarMultimap) :
    ((HandleMap.find? (rest.foldl
        (fun result pvg => pvg.2.foldl (fun r e => join_var lt ll r e.1 e.2) result) result)
        v).isSome = true ↔
      (HandleMap.find? result v).isSome = true ∨
        ∃ e ∈ rest, (HandleMap.find? e.2 v).isSome = true) ∧
    ∀ a ∈ HandleMap.at (rest.foldl
        (fun result pvg => pvg.2.foldl (fun r e => join_var lt ll r e.1 e.2) result) result) v,
      a ∈ HandleMap.at result v ∧
        ∀ e ∈ rest, ∀ t, HandleMap.find? e.2 v = some t → a ∈ t := by
  induction rest generalizing result with
  | nil => simp
  | cons p rest ih =>
    rw [List.foldl_cons]
    have hp : HandleMap.WF p.2 := hwf p (List.mem_cons_self _ _)
    have hin := and_inner lt ll hand v p.2 hp result
    obtain ⟨ih1, ih2⟩ :=
      ih (fun e he => hwf e (List.mem_cons_of_mem _ he))
        (p.2.foldl (fun r e => join_var lt ll r e.1 e.2) result)
    constructor
    · rw [ih1, hin]
      cases hpv : HandleMap.find? p.2 v with
      | none => simp [hpv]
      | some t => simp [hpv]
    · intro a ha
      obtain ⟨h1, h2⟩ := ih2 a ha
      cases hpv : HandleMap.find? p.2 v with
      | none =>
        rw [hpv] at hin
        have hat : HandleMap.at (p.2.foldl (fun r e => join_var lt ll r e.1 e.2) result) v =
            HandleMap.at result v := by
          unfold HandleMap.at
          rw [hin]
        rw [hat] at h1
        refine ⟨h1, fun e he t ht => ?_⟩
        rcases List.mem_cons.1 he with he | he
        · subst he
          rw [hpv] at ht
          exact absurd ht (by simp)
        · exact h2 e he t ht
      | some t0 =>
        rw [hpv] at hin
        have hat : HandleMap.at (p.2.foldl (fun r e => join_var lt ll r e.1 e.2) result) v =
            common_vals (HandleMap.at result v) t0 := by
          simp [HandleMap.at, hin]
        rw [hat, mem_common_vals] at h1
        refine ⟨h1.1, fun e he t ht => ?_⟩
        rcases List.mem_cons.1 he with he | he
        · subst he
          rw [hpv] at ht
          have : t0 = t := by simpa using ht
          subst this
          exact h1.2
        · exact h2 e he t ht

/-- C30: for an AND_LINK connective and every map from children to (well-formed)
substitutions, the key set of the join is the union of the children's key sets, and for
every child that binds a variable `v` the merged value set of `v` is a subset of that
child's value set for `v`. -/
theorem join_and_subset (lt : Handle → Handle → Bool) (logical_link : Handle)
    (premise_var_grounding_map : HandleMap VarMultimap)
    (hand : getType logical_link = AType.AND_LINK)
    (hwf : ∀ e ∈ premise_var_grounding_map, HandleMap.WF e.2) (v : Handle) :
    ((HandleMap.find? (join_premise_vgrounding_maps lt logical_link premise_var_grounding_map)
        v).isSome = true ↔
      ∃ e ∈ premise_var_grounding_map, (HandleMap.find? e.2 v).isSome = true) ∧
    ∀ e ∈ premise_var_grounding_map, ∀ t, HandleMap.find? e.2 v = some t →
      ∀ a ∈ HandleMap.at
        (join_premise_vgrounding_maps lt logical_link premise_var_grounding_map) v, a ∈ t := by
  cases premise_var_grounding_map with
  | nil => simp [join_premise_vgrounding_maps, HandleMap.find?]
  | cons p rest =>
    obtain ⟨c, first⟩ := p
    obtain ⟨h1, h2⟩ :=
      and_outer_bounds lt logical_link hand v rest
        (fun e he => hwf e (List.mem_cons_of_mem _ he)) first
    constructor
    · simp only [join_premise_vgrounding_maps, List.mem_cons, exists_eq_or_imp]
      exact h1
    · intro e he t ht a ha
      simp only [join_premise_vgrounding_maps] at ha
      obtain ⟨h3, h4⟩ := h2 a ha
      rcases List.mem_cons.1 he with he | he
      · subst he
        have hat : HandleMap.at first v = t := by simp [HandleMap.at, ht]
        rw [← hat]
        exact h3
      · exact h4 e he t ht

theorem join_and_subset_witness :
    join_premise_vgrounding_maps example_lt
      (AndLink (InheritanceLink (VariableNode "$x") (ConceptNode "Animal"))
        (InheritanceLink (VariableNode "$y") (ConceptNode "Plant")))
      [(InheritanceLink (VariableNode "$x") (ConceptNode "Animal"),
          [(VariableNode "$x", [ConceptNode "1", ConceptNode "2"])]),
       (InheritanceLink (VariableNode "$y") (ConceptNode "Plant"),
          [(VariableNode "$x", [ConceptNode "2", ConceptNode "3"]),
           (VariableNode "$y", [ConceptNode "3"])])] =
      [(VariableNode "$x", [ConceptNode "2"]), (VariableNode "$y", [])] ∧
    ∀ e ∈ [(InheritanceLink (VariableNode "$x") (ConceptNode "Animal"),
          [(VariableNode "$x", [ConceptNode "1", ConceptNode "2"])]),
       (InheritanceLink (VariableNode "$y") (ConceptNode "Plant"),
          [(VariableNode "$x", [ConceptNode "2", ConceptNode "3"]),
           (VariableNode "$y", [ConceptNode "3"])])],
      ∀ t, HandleMap.find? e.2 (VariableNode "$y") = some t →
      ∀ a ∈ HandleMap.at
        (join_premise_vgrounding_maps example_lt
          (AndLink (InheritanceLink (VariableNode "$x") (ConceptNode "Animal"))
            (InheritanceLink (VariableNode "$y") (ConceptNode "Plant")))
          [(InheritanceLink (VariableNode "$x") (ConceptNode "Animal"),
              [(VariableNode "$x", [ConceptNode "1", ConceptNode "2"])]),
           (InheritanceLink (VariableNode "$y") (ConceptNode "Plant"),
              [(VariableNode "$x", [ConceptNode "2", ConceptNode "3"]),
               (VariableNode "$y", [ConceptNode "3"])])])
        (VariableNode "$y"), a ∈ t :=
  ⟨by decide,
    (join_and_subset example_lt _ _ (by decide) (by decide) (VariableNode "$y")).2⟩

/-! ## Connectives other than AND and OR -/

theorem join_var_other (lt : Handle → Handle → Bool) (ll : Handle)
    (hor : getType ll ≠ AType.OR_LINK) (hand : getType ll ≠ AType.AND_LINK)
    (result : VarMultimap) (key : Handle) (vals : UnorderedHandleSet) :
    join_var lt ll result key vals = result := by
  simp [join_var, hor, hand]

theorem join_fold_other (lt : Handle → Handle → Bool) (ll : Handle)
    (hor : getType ll ≠ AType.OR_LINK) (hand : getType ll ≠ AType.AND_LINK)
    (rest : HandleMap VarMultimap) (result : VarMultimap) :
    rest.foldl
      (fun result pvg => pvg.2.foldl (fun r e => join_var lt ll r e.1 e.2) result) result =
      result := by
  induction rest generalizing result with
  | nil => rfl
  | cons p rest ih =>
    rw [List.foldl_cons]
    have hin : ∀ (vg : VarMultimap) (r : VarMultimap),
        vg.foldl (fun r e => join_var lt ll r e.1 e.2) r = r := by
      intro vg
      induction vg with
      | nil => intro r; rfl
      | cons e vg ihv =>
        intro r
        rw [List.foldl_cons, join_var_other lt ll hor hand]
        exact ihv r
    rw [hin]
    exact ih result

/-- C23 (counterexample): with the history entry `Inheritance($x, "Animal") -> {$x -> {"Fido"}}`
and NOT_LINK among the logical link types, `do_bc` on `Not(Inheritance($x, "Animal"))`
returns the substitution `$x -> {"Fido"}`, the same ordinary result it returns for
`Inheritance($x, "Animal")`, and pushes nothing; no error is reported. -/
theorem not_link_join_returns_substitution :
    (do_bc (kb_env [])
        { fresh_state with
          _inference_history :=
            [(InheritanceLink (VariableNode "$x") (ConceptNode "Animal"),
              [(VariableNode "$x", [ConceptNode "Fido"])])] }
        (NotLink (InheritanceLink (VariableNode "$x") (ConceptNode "Animal")))).1 =
      [(VariableNode "$x", [ConceptNode "Fido"])] ∧
    (do_bc (kb_env [])
        { fresh_state with
          _inference_history :=
            [(InheritanceLink (VariableNode "$x") (ConceptNode "Animal"),
              [(VariableNode "$x", [ConceptNode "Fido"])])] }
        (NotLink (InheritanceLink (VariableNode "$x") (ConceptNode "Animal")))).2._targets_stack =
      [] ∧
    (do_bc (kb_env [])
        { fresh_state with
          _inference_history :=
            [(InheritanceLink (VariableNode "$x") (ConceptNode "Animal"),
              [(VariableNode "$x", [ConceptNode "Fido"])])] }
        (InheritanceLink (VariableNode "$x") (ConceptNode "Animal"))).1 =
      [(VariableNode "$x", [ConceptNode "Fido"])] := by
  refine ⟨?_, ?_, ?_⟩ <;> decide

/-- C23 (amended): for a connective whose type is neither AND_LINK nor OR_LINK,
`join_premise_vgrounding_maps` reports no error: it returns the substitution of the
first child in the iteration order of the map, and the empty substitution for an empty
map. -/
theorem join_other_connective (lt : Handle → Handle → Bool) (logical_link : Handle)
    (hor : getType logical_link ≠ AType.OR_LINK) (hand : getType logical_link ≠ AType.AND_LINK)
    (child : Handle) (first : VarMultimap) (rest : HandleMap VarMultimap) :
    join_premise_vgrounding_maps lt logical_link ((child, first) :: rest) = first ∧
    join_premise_vgrounding_maps lt logical_link [] = [] := by
  constructor
  · simp only [join_premise_vgrounding_maps]
    exact join_fold_other lt logical_link hor hand rest first
  · rfl

theorem join_other_connective_witness :
    getType (NotLink (InheritanceLink (VariableNode "$x") (ConceptNode "Animal"))) ≠
      AType.OR_LINK ∧
    getType (NotLink (InheritanceLink (VariableNode "$x") (ConceptNode "Animal"))) ≠
      AType.AND_LINK ∧
    join_premise_vgrounding_maps example_lt
      (NotLink (InheritanceLink (VariableNode "$x") (ConceptNode "Animal")))
      ((InheritanceLink (VariableNode "$x") (ConceptNode "Animal"),
          [(VariableNode "$x", [ConceptNode "Fido"])]) :: []) =
      [(VariableNode "$x", [ConceptNode "Fido"])] :=
  ⟨by decide, by decide,
    (join_other_connective example_lt _ (by decide) (by decide) _ _ []).1⟩

/-! ## Goals without a proof -/

theorem do_bc_unprovable (env : Env) (st : State) (g : Handle) (hu : Unprovable env g)
    (hnone : HandleMap.find? st._inference_history g = none) :
    do_bc env st g = ([], st) := by
  obtain ⟨hfree, hnl, hkb, hrules⟩ := hu
  unfold do_bc
  simp [hnone, hfree, hnl, hkb, hrules]

theorem chain_step_unprovable_inv (env : Env) (st : State)
    (hinv : ∀ g subt, Unprovable env g →
      HandleMap.find? st._inference_history g = some subt → subt = []) :
    ∀ g subt, Unprovable env g →
      HandleMap.find? (chain_step env st)._inference_history g = some subt → subt = [] := by
  intro g subt hu hf
  cases hs : st._targets_stack with
  | nil =>
    rw [chain_step_of_empty env st hs] at hf
    exact hinv g subt hu hf
  | cons top stack =>
    rw [chain_step_history env st top stack hs, HandleMap.find?_set] at hf
    by_cases hg : g = top
    · subst hg
      rw [if_pos rfl] at hf
      cases hh : HandleMap.find? st._inference_history g with
      | none =>
        rw [do_bc_unprovable env { st with _targets_stack := stack } g hu hh] at hf
        simpa using hf.symm
      | some old =>
        rw [do_bc_cached env { st with _targets_stack := stack } g old hh] at hf
        have : old = subt := by simpa using hf
        subst this
        exact hinv g old hu hh
    · rw [if_neg hg] at hf
      exact hinv g subt hu hf

theorem iterate_unprovable_inv (env : Env) (n : Nat) (st : State)
    (hinv : ∀ g subt, Unprovable env g →
      HandleMap.find? st._inference_history g = some subt → subt = []) :
    ∀ g subt, Unprovable env g →
      HandleMap.find? ((chain_step env)^[n] st)._inference_history g = some subt →
      subt = [] := by
  induction n generalizing st with
  | zero => exact hinv
  | succ n ih =>
    rw [Function.iterate_succ_apply]
    exact ih (chain_step env st) (chain_step_unprovable_inv env st hinv)

theorem chain_step_unprovable (env : Env) (st : State) (g : Handle) (stack : List Handle)
    (hu : Unprovable env g) (hs : st._targets_stack = g :: stack)
    (hentry : ∀ subt, HandleMap.find? st._inference_history g = some subt → subt = []) :
    do_bc env { st with _targets_stack := stack } g = ([], { st with _targets_stack := stack }) ∧
    (chain_step env st)._targets_stack = stack ∧
    HandleMap.find? (chain_step env st)._inference_history g = some [] := by
  have hbc : do_bc env { st with _targets_stack := stack } g =
      ([], { st with _targets_stack := stack }) := by
    cases hh : HandleMap.find? st._inference_history g with
    | none => exact do_bc_unprovable env _ g hu hh
    | some old =>
      have : old = [] := hentry old hh
      subst this
      exact do_bc_cached env _ g [] hh
  refine ⟨hbc, ?_, ?_⟩
  · unfold chain_step
    rw [hs]
    simp only [hbc]
  · rw [chain_step_history env st g stack hs, HandleMap.find?_set, if_pos rfl, hbc]

/-- C22: when the loop of `do_chain` pops a goal with free variables that is not a
logical connective, has no knowledge-base match and passes no rule, and the goal has no
history entry or the run began with an empty history, then `do_bc` returns the empty
substitution and pushes nothing, and the iteration records the empty substitution as
the history entry of the goal. -/
theorem unprovable_goal_recorded (env : Env) (g : Handle) (hu : Unprovable env g) :
    (∀ st stack, st._targets_stack = g :: stack →
      HandleMap.find? st._inference_history g = none →
      do_bc env { st with _targets_stack := stack } g =
        ([], { st with _targets_stack := stack }) ∧
      (chain_step env st)._targets_stack = stack ∧
      HandleMap.find? (chain_step env st)._inference_history g = some []) ∧
    ∀ st0 n stack, st0._inference_history = [] →
      ((chain_step env)^[n] st0)._targets_stack = g :: stack →
      do_bc env { (chain_step env)^[n] st0 with _targets_stack := stack } g =
        ([], { (chain_step env)^[n] st0 with _targets_stack := stack }) ∧
      (chain_step env ((chain_step env)^[n] st0))._targets_stack = stack ∧
      HandleMap.find? (chain_step env ((chain_step env)^[n] st0))._inference_history g =
        some [] := by
  constructor
  · intro st stack hs hnone
    exact chain_step_unprovable env st g stack hu hs
      (fun subt h => by rw [hnone] at h; exact absurd h (by simp))
  · intro st0 n stack h0 hs
    have hinv0 : ∀ g subt, Unprovable env g →
        HandleMap.find? st0._inference_history g = some subt → subt = [] := by
      intro g2 subt _ hf
      rw [h0] at hf
      simp [HandleMap.find?] at hf
    exact chain_step_unprovable env _ g stack hu hs
      (fun subt h => iterate_unprovable_inv env n st0 hinv0 g subt hu h)

theorem unprovable_goal_recorded_witness :
    Unprovable (rules_env [mammal_rule]) (ListLink (VariableNode "$x") (ConceptNode "Plant")) ∧
    (chain_step (rules_env [mammal_rule])
      { fresh_state with
        _targets_stack := [ListLink (VariableNode "$x") (ConceptNode "Plant")] }
      )._targets_stack = [] ∧
    HandleMap.find?
      (chain_step (rules_env [mammal_rule])
        { fresh_state with
          _targets_stack := [ListLink (VariableNode "$x") (ConceptNode "Plant")] }
        )._inference_history
      (ListLink (VariableNode "$x") (ConceptNode "Plant")) = some [] :=
  ⟨⟨by decide, by decide, by decide, by decide⟩,
    ((unprovable_goal_recorded (rules_env [mammal_rule]) _
        ⟨by decide, by decide, by decide, by decide⟩).1
      { fresh_state with
        _targets_stack := [ListLink (VariableNode "$x") (ConceptNode "Plant")] }
      [] rfl (by decide)).2⟩

/-! ## The knowledge-base branch of `do_bc` -/

theorem add_mapping_spec (lt : Handle → Handle → Bool) (mapping : VarMap)
    (results : VarMultimap) (k : Handle) :
    ((HandleMap.find? (add_mapping lt results mapping) k).isSome = true ↔
      (HandleMap.find? results k).isSome = true ∨ k ∈ mapping.map Prod.fst) ∧
    ∀ a, (a ∈ HandleMap.at (add_mapping lt results mapping) k ↔
      a ∈ HandleMap.at results k ∨ (k, a) ∈ mapping) := by
  unfold add_mapping
  induction mapping generalizing results with
  | nil => simp
  | cons e mapping ih =>
    obtain ⟨k2, v2⟩ := e
    rw [List.foldl_cons]
    obtain ⟨ih1, ih2⟩ := ih
      (HandleMap.set lt results k2
        (UnorderedHandleSet.emplace (HandleMap.at results k2) v2))
    constructor
    · rw [ih1, HandleMap.find?_set]
      by_cases hk : k = k2
      · simp [hk]
      · simp [hk]
    · intro a
      rw [ih2 a, HandleMap.at_set]
      by_cases hk : k = k2
      · subst hk
        simp only [if_true, UnorderedHandleSet.mem_emplace, List.mem_cons, Prod.mk.injEq,
          true_and, or_assoc]
      · simp [hk]

theorem ground_by_matches_spec (lt : Handle → Handle → Bool) (hgoal : Handle)
    (kb_match : HandleSeq) (stack : List Handle) (results : VarMultimap) :
    (ground_by_matches lt hgoal kb_match stack results).1 =
      (kb_match.filter fun soln => !(get_free_vars_in_tree soln).isEmpty).reverse ++ stack ∧
    ∀ k,
      ((HandleMap.find? (ground_by_matches lt hgoal kb_match stack results).2 k).isSome = true ↔
        (HandleMap.find? results k).isSome = true ∨
          ∃ soln ∈ kb_match, k ∈ (unify lt hgoal soln []).2.map Prod.fst) ∧
      ∀ a, (a ∈ HandleMap.at (ground_by_matches lt hgoal kb_match stack results).2 k ↔
        a ∈ HandleMap.at results k ∨
          ∃ soln ∈ kb_match, (k, a) ∈ (unify lt hgoal soln []).2) := by
  induction kb_match generalizing stack results with
  | nil => simp [ground_by_matches]
  | cons soln kb_match ih =>
    simp only [ground_by_matches]
    obtain ⟨ih1, ih2⟩ :=
      ih (if (get_free_vars_in_tree soln).isEmpty then stack else soln :: stack)
        (add_mapping lt results (unify lt hgoal soln []).2)
    constructor
    · rw [ih1]
      by_cases hf : (get_free_vars_in_tree soln).isEmpty = true
      · simp [List.filter_cons, hf]
      · simp [List.filter_cons, hf]
    · intro k
      obtain ⟨h1, h2⟩ := ih2 k
      obtain ⟨a1, a2⟩ := add_mapping_spec lt (unify lt hgoal soln []).2 results k
      constructor
      · rw [h1, a1]
        simp only [List.mem_cons, exists_eq_or_imp, or_assoc]
      · intro a
        rw [h2 a, a2 a]
        simp only [List.mem_cons, exists_eq_or_imp, or_assoc]

/-- C24: for a goal `g` with free variables that is not a logical connective, has no
history entry and has knowledge-base matches, `do_bc` returns a substitution whose keys
are the keys of the maps that `unify(g, match, fresh map)` leaves over all matches and
whose value set for a variable holds exactly the atoms these maps bind to it; and it
pushes exactly the matches that have free variables, in match order. -/
theorem kb_branch (env : Env) (st : State) (g : Handle)
    (hnone : HandleMap.find? st._inference_history g = none)
    (hfree : (get_free_vars_in_tree g).isEmpty = false)
    (hnl : getType g ∉ env._logical_link_types)
    (hkb : filter_knowledge_base env g ≠ []) :
    ∃ results,
      do_bc env st g =
        (results,
          { st with
            _targets_stack :=
              ((filter_knowledge_base env g).filter
                fun soln => !(get_free_vars_in_tree soln).isEmpty).reverse ++
              st._targets_stack }) ∧
      ∀ k,
        ((HandleMap.find? results k).isSome = true ↔
          ∃ soln ∈ filter_knowledge_base env g,
            k ∈ (unify env.lt g soln []).2.map Prod.fst) ∧
        ∀ a, (a ∈ HandleMap.at results k ↔
          ∃ soln ∈ filter_knowledge_base env g, (k, a) ∈ (unify env.lt g soln []).2) := by
  obtain ⟨h1, h2⟩ :=
    ground_by_matches_spec env.lt g (filter_knowledge_base env g) st._targets_stack []
  have hne : (filter_knowledge_base env g).isEmpty = false := by
    cases hk : filter_knowledge_base env g with
    | nil => exact absurd hk hkb
    | cons a l => rfl
  refine ⟨(ground_by_matches env.lt g (filter_knowledge_base env g) st._targets_stack []).2,
    ?_, fun k => ?_⟩
  · unfold do_bc
    simp only [hnone, hfree, hnl, hne, if_false, Bool.false_eq_true]
    rw [← h1]
  · obtain ⟨k1, k2⟩ := h2 k
    constructor
    · rw [k1]
      simp [HandleMap.find?]
    · intro a
      rw [k2 a]
      simp [HandleMap.at, HandleMap.find?]

theorem kb_branch_witness :
    (do_bc
        (facts_env (InheritanceLink (VariableNode "$x") (ConceptNode "Animal"))
          [InheritanceLink (ConceptNode "Fido") (ConceptNode "Animal"),
           InheritanceLink (VariableNode "$y") (ConceptNode "Animal")])
        fresh_state (InheritanceLink (VariableNode "$x") (ConceptNode "Animal"))).1 =
      [(VariableNode "$x", [ConceptNode "Fido", VariableNode "$y"])] ∧
    (do_bc
        (facts_env (InheritanceLink (VariableNode "$x") (ConceptNode "Animal"))
          [InheritanceLink (ConceptNode "Fido") (ConceptNode "Animal"),
           InheritanceLink (VariableNode "$y") (ConceptNode "Animal")])
        fresh_state
        (InheritanceLink (VariableNode "$x") (ConceptNode "Animal"))).2._targets_stack =
      [InheritanceLink (VariableNode "$y") (ConceptNode "Animal")] ∧
    ∃ results,
      do_bc
        (facts_env (InheritanceLink (VariableNode "$x") (ConceptNode "Animal"))
          [InheritanceLink (ConceptNode "Fido") (ConceptNode "Animal"),
           InheritanceLink (VariableNode "$y") (ConceptNode "Animal")])
        fresh_state (InheritanceLink (VariableNode "$x") (ConceptNode "Animal")) =
        (results,
          { fresh_state with
            _targets_stack :=
              ((filter_knowledge_base
                  (facts_env (InheritanceLink (VariableNode "$x") (ConceptNode "Animal"))
                    [InheritanceLink (ConceptNode "Fido") (ConceptNode "Animal"),
                     InheritanceLink (VariableNode "$y") (ConceptNode "Animal")])
                  (InheritanceLink (VariableNode "$x") (ConceptNode "Animal"))).filter
                fun soln => !(get_free_vars_in_tree soln).isEmpty).reverse ++
              fresh_state._targets_stack }) ∧
      ∀ k,
        ((HandleMap.find? results k).isSome = true ↔
          ∃ soln ∈ filter_knowledge_base
              (facts_env (InheritanceLink (VariableNode "$x") (ConceptNode "Animal"))
                [InheritanceLink (ConceptNode "Fido") (ConceptNode "Animal"),
                 InheritanceLink (VariableNode "$y") (ConceptNode "Animal")])
              (InheritanceLink (VariableNode "$x") (ConceptNode "Animal")),
            k ∈ (unify example_lt (InheritanceLink (VariableNode "$x") (ConceptNode "Animal"))
              soln []).2.map Prod.fst) ∧
        ∀ a, (a ∈ HandleMap.at results k ↔
          ∃ soln ∈ filter_knowledge_base
              (facts_env (InheritanceLink (VariableNode "$x") (ConceptNode "Animal"))
                [InheritanceLink (ConceptNode "Fido") (ConceptNode "Animal"),
                 InheritanceLink (VariableNode "$y") (ConceptNode "Animal")])
              (InheritanceLink (VariableNode "$x") (ConceptNode "Animal")),
            (k, a) ∈ (unify example_lt
              (InheritanceLink (VariableNode "$x") (ConceptNode "Animal")) soln []).2) :=
  ⟨by decide, by decide,
    kb_branch
      (facts_env (InheritanceLink (VariableNode "$x") (ConceptNode "Animal"))
        [InheritanceLink (ConceptNode "Fido") (ConceptNode "Animal"),
         InheritanceLink (VariableNode "$y") (ConceptNode "Animal")])
      fresh_state (InheritanceLink (VariableNode "$x") (ConceptNode "Animal"))
      (by decide) (by decide) (by decide) (by decide)⟩

/-! ## Repeated variables -/

mutual
theorem unify_writes_aux (lt : Handle → Handle → Bool) :
    ∀ (p c : Handle) (m r : VarMap), unify lt p c m = (true, r) →
      r = HandleMap.writes lt m (occurrences p c)
  | .node t name, c, m, r, h => by
      by_cases ht : t = AType.VARIABLE_NODE
      · simp only [unify, getType, ht, if_true, Prod.mk.injEq] at h
        simp [occurrences, getType, ht, HandleMap.writes, h.2]
      · simp only [unify, getType, ht, if_false, Prod.mk.injEq] at h
        simp [occurrences, getType, ht, HandleMap.writes, h.2]
  | .link t out, .node t2 name, m, r, h => by
      by_cases ht : t = AType.VARIABLE_NODE
      · simp only [unify, getType, ht, if_true, Prod.mk.injEq] at h
        simp [occurrences, getType, ht, HandleMap.writes, h.2]
      · simp only [unify, getType, ht, if_false, Prod.mk.injEq] at h
        simp [occurrences, getType, ht, HandleMap.writes, h.2]
  | .link t out, .link t2 out2, m, r, h => by
      by_cases h1 : t = t2
      · by_cases h2 : out.length = out2.length
        · cases h4 : unify_outgoing lt out out2 m with
          | mk b r2 =>
            cases b with
            | false => simp [unify, h1, h2, h4] at h
            | true =>
              simp only [unify, h1, h2, h4, ne_eq, not_true_eq_false, if_false,
                Prod.mk.injEq] at h
              rw [← h.2]
              simp only [occurrences]
              exact unify_outgoing_writes_aux lt out out2 m r2 h4
        · simp [unify, h1, h2] at h
      · simp [unify, h1] at h
theorem unify_outgoing_writes_aux (lt : Handle → Handle → Bool) :
    ∀ (ps cs : List Handle) (m r : VarMap), unify_outgoing lt ps cs m = (true, r) →
      r = HandleMap.writes lt m (occurrences_outgoing ps cs)
  | [], cs, m, r, h => by
      simp only [unify_outgoing, Prod.mk.injEq, true_and] at h
      simp [occurrences_outgoing, HandleMap.writes, h]
  | p :: ps, [], m, r, h => by
      simp only [unify_outgoing, Prod.mk.injEq, true_and] at h
      simp [occurrences_outgoing, HandleMap.writes, h]
  | p :: ps, c :: cs, m, r, h => by
      by_cases hv : getType p = AType.VARIABLE_NODE
      · simp only [unify_outgoing, hv, if_true] at h
        have h2 := unify_outgoing_writes_aux lt ps cs _ r h
        rw [h2]
        simp [occurrences_outgoing, hv, HandleMap.writes]
      · cases h4 : unify lt p c m with
        | mk b r2 =>
          cases b with
          | false => simp [unify_outgoing, hv, h4] at h
          | true =>
            simp only [unify_outgoing, hv, if_false, h4] at h
            have h2 := unify_outgoing_writes_aux lt ps cs r2 r h
            have h3 := unify_writes_aux lt p c m r2 h4
            rw [h2, h3]
            simp [occurrences_outgoing, hv, HandleMap.writes]
end

theorem HandleMap.find?_writes (lt : Handle → Handle → Bool) (occ : List (Handle × Handle))
    (m : VarMap) (v : Handle) :
    HandleMap.find? (HandleMap.writes lt m occ) v =
      match last_occurrence occ v with
      | some t => some t
      | none => HandleMap.find? m v := by
  induction occ generalizing m with
  | nil => simp [HandleMap.writes, last_occurrence]
  | cons e occ ih =>
    obtain ⟨k, t⟩ := e
    have hw : HandleMap.writes lt m ((k, t) :: occ) =
        HandleMap.writes lt (HandleMap.set lt m k t) occ := rfl
    rw [hw, ih, HandleMap.find?_set]
    simp only [last_occurrence]
    cases last_occurrence occ v with
    | some t2 => rfl
    | none =>
      by_cases hk : v = k
      · simp [hk]
      · simp [hk]

theorem unify_outgoing_all_vars (lt : Handle → Handle → Bool) (ps cs : List Handle)
    (m : VarMap) (hvars : ∀ p ∈ ps, getType p = AType.VARIABLE_NODE)
    (hlen : ps.length = cs.length) :
    unify_outgoing lt ps cs m = (true, HandleMap.writes lt m (ps.zip cs)) := by
  induction ps generalizing cs m with
  | nil => simp [unify_outgoing, HandleMap.writes]
  | cons p ps ih =>
    cases cs with
    | nil => simp at hlen
    | cons c cs =>
      have hv : getType p = AType.VARIABLE_NODE := hvars p (List.mem_cons_self _ _)
      simp only [unify_outgoing, hv, if_true]
      rw [ih cs _ (fun q hq => hvars q (List.mem_cons_of_mem _ hq))
        (by simpa using hlen)]
      rfl

theorem HandleMap.writes_ne_nil {V : Type} (lt : Handle → Handle → Bool)
    (occ : List (Handle × V)) (m : HandleMap V) (hne : occ ≠ []) :
    HandleMap.writes lt m occ ≠ [] := by
  induction occ generalizing m with
  | nil => exact absurd rfl hne
  | cons e occ ih =>
    have hw : HandleMap.writes lt m (e :: occ) =
        HandleMap.writes lt (HandleMap.set lt m e.1 e.2) occ := rfl
    rw [hw]
    cases occ with
    | nil => exact HandleMap.set_ne_nil lt m e.1 e.2
    | cons e2 occ => exact ih _ (by simp)

theorem HandleMap.keys_set {V W : Type} (lt : Handle → Handle → Bool) (k : Handle) (v : V) (w : W) :
    ∀ (m : HandleMap V) (m2 : HandleMap W), m.map Prod.fst = m2.map Prod.fst →
      (HandleMap.set lt m k v).map Prod.fst = (HandleMap.set lt m2 k w).map Prod.fst
  | [], [], _ => rfl
  | [], _ :: _, h => by simp at h
  | _ :: _, [], h => by simp at h
  | (k1, v1) :: m, (k2, v2) :: m2, h => by
      simp only [List.map_cons, List.cons.injEq] at h
      obtain ⟨h1, h2⟩ := h
      subst h1
      by_cases hk : k = k1
      · simp [HandleMap.set, hk, h2]
      · by_cases hl : lt k k1 = true
        · simp [HandleMap.set, hk, hl, h2]
        · simp [HandleMap.set, hk, hl, HandleMap.keys_set lt k v w m m2 h2]

theorem forget_bound_outgoing_length :
    ∀ (ps cs : List Handle), (forget_bound_outgoing ps cs).length = cs.length
  | [], cs => by simp [forget_bound_outgoing]
  | p :: ps, [] => by simp [forget_bound_outgoing]
  | p :: ps, c :: cs => by
      simp [forget_bound_outgoing, forget_bound_outgoing_length ps cs]


theorem HandleMap.isEmpty_of_keys {V W : Type} (m : HandleMap V) (m2 : HandleMap W)
    (h : m.map Prod.fst = m2.map Prod.fst) : m.isEmpty = m2.isEmpty := by
  cases m <;> cases m2 <;> simp at h ⊢

mutual
theorem unify_forget_aux (lt : Handle → Handle → Bool) :
    ∀ (p c : Handle) (m m2 : VarMap), m.map Prod.fst = m2.map Prod.fst →
      (unify lt p c m).1 = (unify lt p (forget_bound p c) m2).1 ∧
      (unify lt p c m).2.map Prod.fst = (unify lt p (forget_bound p c) m2).2.map Prod.fst
  | .node t name, c, m, m2, h => by
      by_cases ht : t = AType.VARIABLE_NODE
      · have hk := HandleMap.keys_set lt (.node t name) c c m m2 h
        have he := HandleMap.isEmpty_of_keys _ _ hk
        rw [ht] at hk he
        simp only [unify, forget_bound, getType, ht, if_true]
        exact ⟨by rw [he], hk⟩
      · have he := HandleMap.isEmpty_of_keys _ _ h
        simp only [unify, forget_bound, getType, ht, if_false]
        exact ⟨by rw [he], h⟩
  | .link t out, .node t2 name, m, m2, h => by
      by_cases ht : t = AType.VARIABLE_NODE
      · have hk := HandleMap.keys_set lt (.link t out) (Atom.node t2 name) (Atom.node t2 name)
          m m2 h
        have he := HandleMap.isEmpty_of_keys _ _ hk
        rw [ht] at hk he
        simp only [unify, forget_bound, getType, ht, if_true]
        exact ⟨by rw [he], hk⟩
      · have he := HandleMap.isEmpty_of_keys _ _ h
        simp only [unify, forget_bound, getType, ht, if_false]
        exact ⟨by rw [he], h⟩
  | .link t out, .link t2 out2, m, m2, h => by
      by_cases h1 : t = t2
      · by_cases h2 : out.length = out2.length
        · obtain ⟨hb, hr⟩ := unify_outgoing_forget_aux lt out out2 m m2 h
          cases h4 : unify_outgoing lt out out2 m with
          | mk b r =>
            cases h5 : unify_outgoing lt out (forget_bound_outgoing out out2) m2 with
            | mk b2 r2 =>
              rw [h4, h5] at hb hr
              simp only at hb hr
              subst hb
              have he := HandleMap.isEmpty_of_keys _ _ hr
              cases b with
              | false =>
                simp only [unify, forget_bound, h1, h2, forget_bound_outgoing_length, h4, h5,
                  ne_eq, not_true_eq_false, if_false]
                exact ⟨by simp, hr⟩
              | true =>
                simp only [unify, forget_bound, h1, h2, forget_bound_outgoing_length, h4, h5,
                  ne_eq, not_true_eq_false, if_false]
                exact ⟨by rw [he], hr⟩
        · simp [unify, forget_bound, h1, h2, forget_bound_outgoing_length]
      · simp [unify, forget_bound, h1]
theorem unify_outgoing_forget_aux (lt : Handle → Handle → Bool) :
    ∀ (ps cs : List Handle) (m m2 : VarMap), m.map Prod.fst = m2.map Prod.fst →
      (unify_outgoing lt ps cs m).1 = (unify_outgoing lt ps (forget_bound_outgoing ps cs) m2).1 ∧
      (unify_outgoing lt ps cs m).2.map Prod.fst =
        (unify_outgoing lt ps (forget_bound_outgoing ps cs) m2).2.map Prod.fst
  | [], cs, m, m2, h => by
      simp only [unify_outgoing, forget_bound_outgoing]
      exact ⟨trivial, h⟩
  | p :: ps, [], m, m2, h => by
      simp only [unify_outgoing, forget_bound_outgoing]
      exact ⟨trivial, h⟩
  | p :: ps, c :: cs, m, m2, h => by
      by_cases hv : getType p = AType.VARIABLE_NODE
      · simp only [unify_outgoing, forget_bound_outgoing, hv, if_true]
        exact unify_outgoing_forget_aux lt ps cs _ _ (HandleMap.keys_set lt p c p m m2 h)
      · obtain ⟨hb, hr⟩ := unify_forget_aux lt p c m m2 h
        cases h4 : unify lt p c m with
        | mk b r =>
          cases h5 : unify lt p (forget_bound p c) m2 with
          | mk b2 r2 =>
            rw [h4, h5] at hb hr
            simp only at hb hr
            subst hb
            cases b with
            | false =>
              simp only [unify_outgoing, forget_bound_outgoing, hv, if_false, h4, h5]
              exact ⟨by simp, hr⟩
            | true =>
              simp only [unify_outgoing, forget_bound_outgoing, hv, if_false, h4, h5]
              exact unify_outgoing_forget_aux lt ps cs r r2 hr
end

/-- C28: `unify` makes no consistency check for a repeated variable.  Whenever it
returns true, the resulting map binds every variable of the pattern to the atom at the
position of the variable's last occurrence, left to right and depth first (and keeps
the initial binding of any other key).  For a link pattern whose children are all
variables it returns true for every link of the same type and child count.  And for
every pattern its result is the same for two atoms that differ only at positions of
variables of the pattern, so different atoms at the positions of a repeated variable
never make it fail. -/
theorem unify_last_write_wins (lt : Handle → Handle → Bool) :
    (∀ (p c : Handle) (m r : VarMap), unify lt p c m = (true, r) →
      ∀ v, HandleMap.find? r v =
        match last_occurrence (occurrences p c) v with
        | some t => some t
        | none => HandleMap.find? m v) ∧
    (∀ (t : AType) (ps cs : List Handle) (m : VarMap),
      (∀ p ∈ ps, getType p = AType.VARIABLE_NODE) → ps ≠ [] → ps.length = cs.length →
      (unify lt (.link t ps) (.link t cs) m).1 = true) ∧
    ∀ (p c c2 : Handle) (m : VarMap), forget_bound p c = forget_bound p c2 →
      (unify lt p c m).1 = (unify lt p c2 m).1 := by
  refine ⟨?_, ?_, ?_⟩
  · intro p c m r h v
    rw [unify_writes_aux lt p c m r h, HandleMap.find?_writes]
  · intro t ps cs m hvars hne hlen
    have hzip : ps.zip cs ≠ [] := by
      cases ps with
      | nil => exact absurd rfl hne
      | cons p ps =>
        cases cs with
        | nil => simp at hlen
        | cons c cs => simp
    have hw := HandleMap.writes_ne_nil lt (ps.zip cs) m hzip
    simp only [unify, ne_eq, not_true_eq_false, if_false, hlen,
      unify_outgoing_all_vars lt ps cs m hvars hlen]
    cases hr : HandleMap.writes lt m (ps.zip cs) with
    | nil => exact absurd hr hw
    | cons e l => rfl
  · intro p c c2 m hf
    rw [(unify_forget_aux lt p c m m rfl).1, (unify_forget_aux lt p c2 m m rfl).1, hf]

theorem unify_last_write_wins_witness :
    unify example_lt (ListLink (VariableNode "$x") (VariableNode "$x"))
      (ListLink (ConceptNode "1") (ConceptNode "2")) [] =
      (true, [(VariableNode "$x", ConceptNode "2")]) ∧
    last_occurrence
      (occurrences (ListLink (VariableNode "$x") (VariableNode "$x"))
        (ListLink (ConceptNode "1") (ConceptNode "2"))) (VariableNode "$x") =
      some (ConceptNode "2") ∧
    ∀ v, HandleMap.find? [(VariableNode "$x", ConceptNode "2")] v =
      match last_occurrence
        (occurrences (ListLink (VariableNode "$x") (VariableNode "$x"))
          (ListLink (ConceptNode "1") (ConceptNode "2"))) v with
      | some t => some t
      | none => HandleMap.find? ([] : VarMap) v :=
  ⟨by decide, by decide,
    (unify_last_write_wins example_lt).1 _ _ [] _ (by decide)⟩

/-! ## The rule branch of `do_bc` -/

theorem select_rule_mem (rules : List Rule) (hne : 0 < rules.length) (rnd : Nat) :
    select_rule rules hne rnd ∈ rules := by
  unfold select_rule
  exact List.get_mem _ _ _

theorem unify_outputs_first (lt : Handle → Handle → Bool) (hgoal : Handle)
    (pre post : HandleSeq) (h : Handle) (M : VarMap)
    (hpre : ∀ p ∈ pre, (unify lt p hgoal []).1 = false)
    (hh : unify lt h hgoal [] = (true, M))
    (implicand_mapping : VarMap) (results : VarMultimap) :
    unify_outputs lt hgoal (pre ++ h :: post) implicand_mapping results =
      (M, add_mapping lt results M) := by
  induction pre generalizing implicand_mapping with
  | nil => simp [unify_outputs, hh]
  | cons p pre ih =>
    have hp : (unify lt p hgoal []).1 = false := hpre p (List.mem_cons_self _ _)
    cases hu : unify lt p hgoal [] with
    | mk b r =>
      rw [hu] at hp
      simp only at hp
      subst hp
      simp only [List.cons_append, unify_outputs, hu]
      exact ih (fun q hq => hpre q (List.mem_cons_of_mem _ hq)) r

theorem add_mapping_singletons (lt : Handle → Handle → Bool) (M : VarMap)
    (hwf : HandleMap.WF M) (results : VarMultimap)
    (hfresh : ∀ k ∈ M.map Prod.fst, HandleMap.find? results k = none) (k : Handle) :
    HandleMap.find? (add_mapping lt results M) k =
      match HandleMap.find? M k with
      | some a => some [a]
      | none => HandleMap.find? results k := by
  induction M generalizing results with
  | nil => simp [add_mapping, HandleMap.find?]
  | cons e M ih =>
    obtain ⟨k2, v2⟩ := e
    unfold HandleMap.WF at hwf
    rw [List.map_cons, List.nodup_cons] at hwf
    have hk2 : HandleMap.find? results k2 = none := hfresh k2 (by simp)
    have hat : HandleMap.at results k2 = [] := by simp [HandleMap.at, hk2]
    have hstep : add_mapping lt results ((k2, v2) :: M) =
        add_mapping lt (HandleMap.set lt results k2 [v2]) M := by
      simp [add_mapping, hat, UnorderedHandleSet.emplace]
    have hfresh2 : ∀ k ∈ M.map Prod.fst,
        HandleMap.find? (HandleMap.set lt results k2 [v2]) k = none := by
      intro j hj
      have hne : ¬ j = k2 := fun e => hwf.1 (e ▸ hj)
      rw [HandleMap.find?_set, if_neg hne]
      exact hfresh j (by simp [hj])
    rw [hstep, ih hwf.2 _ hfresh2]
    by_cases hk : k = k2
    · subst hk
      rw [HandleMap.find?_eq_none M k hwf.1]
      simp [HandleMap.find?, HandleMap.find?_set]
    · simp only [HandleMap.find?, hk, if_false, HandleMap.find?_set]

/-- C25: for a goal `g` with free variables that is not a logical connective, has no
history entry and no knowledge-base match, and with at least one rule in
`filter_rules(g)`: the rule that `do_bc` selects is a member of `filter_rules(g)`; when
`h` is the first output of the standardized-apart rule that unifies with `g`, with the
bindings `M`, then `do_bc` pushes exactly one goal, the rule's implicant instantiated
with `M`, and returns exactly the bindings of `M`, each variable mapped to a singleton
set. -/
theorem rule_branch (env : Env) (st : State) (g : Handle)
    (hnone : HandleMap.find? st._inference_history g = none)
    (hfree : (get_free_vars_in_tree g).isEmpty = false)
    (hnl : getType g ∉ env._logical_link_types)
    (hkb : filter_knowledge_base env g = [])
    (hne : 0 < (filter_rules env g).length)
    (pre post : HandleSeq) (h : Handle) (M : VarMap)
    (hout : (env.gen_standardize_apart st.selections
        (select_rule (filter_rules env g) hne (env.random st.selections))).get_implicand =
      pre ++ h :: post)
    (hpre : ∀ p ∈ pre, (unify env.lt p g []).1 = false)
    (hh : unify env.lt h g [] = (true, M)) :
    select_rule (filter_rules env g) hne (env.random st.selections) ∈ filter_rules env g ∧
    ∃ results,
      do_bc env st g =
        (results,
          { st with
            _targets_stack :=
              env.instantiate
                (env.gen_standardize_apart st.selections
                  (select_rule (filter_rules env g) hne
                    (env.random st.selections))).get_implicant M ::
              st._targets_stack
            selections := st.selections + 1 }) ∧
      (∀ k a, (a ∈ HandleMap.at results k ↔ (k, a) ∈ M)) ∧
      (HandleMap.WF M →
        ∀ k, HandleMap.find? results k = (HandleMap.find? M k).map fun a => [a]) := by
  refine ⟨select_rule_mem _ hne _, add_mapping env.lt [] M, ?_, ?_, ?_⟩
  · unfold do_bc
    simp only [hnone, hfree, hnl, hkb, List.isEmpty_nil, if_true, if_false,
      Bool.false_eq_true, dif_pos hne, hout,
      unify_outputs_first env.lt g pre post h M hpre hh [] []]
  · intro k a
    rw [(add_mapping_spec env.lt M [] k).2 a]
    simp [HandleMap.at, HandleMap.find?]
  · intro hwf k
    rw [add_mapping_singletons env.lt M hwf [] (fun _ _ => rfl) k]
    cases HandleMap.find? M k <;> simp [HandleMap.find?]

theorem rule_branch_witness :
    (do_bc (rules_env [mammal_rule]) fresh_state
        (InheritanceLink (VariableNode "$x") (ConceptNode "Animal"))).1 =
      [(VariableNode "$y", [VariableNode "$x"])] ∧
    (do_bc (rules_env [mammal_rule]) fresh_state
        (InheritanceLink (VariableNode "$x") (ConceptNode "Animal"))).2._targets_stack =
      [InheritanceLink (VariableNode "$x") (ConceptNode "Mammal")] ∧
    select_rule
        (filter_rules (rules_env [mammal_rule])
          (InheritanceLink (VariableNode "$x") (ConceptNode "Animal")))
        (by decide) ((rules_env [mammal_rule]).random fresh_state.selections) ∈
      filter_rules (rules_env [mammal_rule])
        (InheritanceLink (VariableNode "$x") (ConceptNode "Animal")) :=
  ⟨by decide, by decide,
    (rule_branch (rules_env [mammal_rule]) fresh_state
      (InheritanceLink (VariableNode "$x") (ConceptNode "Animal"))
      (by decide) (by decide) (by decide) (by decide) (by decide)
      [] [] (InheritanceLink (VariableNode "$y") (ConceptNode "Animal"))
      [(VariableNode "$y", VariableNode "$x")]
      (by decide) (by decide) (by decide)).1⟩

/-! ## The stack discipline of the loop -/

theorem do_bc_deferral (env : Env) (st : State) (g : Handle)
    (hnone : HandleMap.find? st._inference_history g = none)
    (hfree : (get_free_vars_in_tree g).isEmpty = false)
    (hlogical : getType g ∈ env._logical_link_types)
    (hchild : ∃ h ∈ getOutgoingSet g, HandleMap.count st._inference_history h = 0) :
    do_bc env st g =
      ([], { st with _targets_stack := (getOutgoingSet g).reverse ++ g :: st._targets_stack }) := by
  have hany : (getOutgoingSet g).any
      (fun h => decide (HandleMap.count st._inference_history h = 0)) = true := by
    rw [List.any_eq_true]
    obtain ⟨h, hmem, hc⟩ := hchild
    exact ⟨h, hmem, by simpa using hc⟩
  unfold do_bc
  simp only [hnone, hfree, hlogical, hany, if_true, Bool.false_eq_true, if_false]

theorem do_bc_stack (env : Env) (st : State) (g : Handle) :
    ∃ pushed, (do_bc env st g).2._targets_stack = pushed ++ st._targets_stack := by
  unfold do_bc
  split
  · exact ⟨[], rfl⟩
  · split
    · exact ⟨[], rfl⟩
    · split
      · dsimp only
        split
        · exact ⟨(getOutgoingSet g).reverse ++ [g], by simp⟩
        · exact ⟨[], rfl⟩
      · dsimp only
        split
        · split
          · exact ⟨[_], rfl⟩
          · exact ⟨[], rfl⟩
        · exact ⟨_, (ground_by_matches_spec env.lt g (filter_knowledge_base env g)
            st._targets_stack []).1⟩

theorem chain_step_stack (env : Env) (st : State) (top : Handle) (stack : List Handle)
    (hs : st._targets_stack = top :: stack) :
    ∃ pushed, (chain_step env st)._targets_stack = pushed ++ stack := by
  obtain ⟨pushed, hp⟩ := do_bc_stack env { st with _targets_stack := stack } top
  refine ⟨pushed, ?_⟩
  unfold chain_step
  rw [hs]
  exact hp

theorem chain_step_top_entry (env : Env) (st : State) (top : Handle) (stack : List Handle)
    (hs : st._targets_stack = top :: stack) :
    (HandleMap.find? (chain_step env st)._inference_history top).isSome = true := by
  rw [chain_step_history env st top stack hs, HandleMap.find?_set, if_pos rfl]
  rfl

theorem chain_step_keeps_isSome (env : Env) (st : State) (g : Handle)
    (h : (HandleMap.find? st._inference_history g).isSome = true) :
    (HandleMap.find? (chain_step env st)._inference_history g).isSome = true := by
  obtain ⟨subt, hs⟩ := Option.isSome_iff_exists.1 h
  rw [chain_step_keeps_entry env st g subt hs]
  rfl

theorem stack_base_intact (env : Env) (st : State) (above base : List Handle)
    (hs : st._targets_stack = above ++ base) (n : Nat)
    (hnot : ∀ m, m < n → ((chain_step env)^[m] st)._targets_stack ≠ base) :
    ∃ above_n, ((chain_step env)^[n] st)._targets_stack = above_n ++ base ∧
      ∀ h ∈ above, h ∈ above_n ∨
        (HandleMap.find? ((chain_step env)^[n] st)._inference_history h).isSome = true := by
  induction n with
  | zero => exact ⟨above, hs, fun h hh => Or.inl hh⟩
  | succ n ih =>
    obtain ⟨above_n, hst, hmem⟩ := ih (fun m hm => hnot m (Nat.lt_succ_of_lt hm))
    have hne : above_n ≠ [] := by
      intro e
      rw [e, List.nil_append] at hst
      exact hnot n (Nat.lt_succ_self n) hst
    cases above_n with
    | nil => exact absurd rfl hne
    | cons top rest =>
      rw [Function.iterate_succ_apply']
      have hst2 : ((chain_step env)^[n] st)._targets_stack = top :: (rest ++ base) := by
        rw [hst]; rfl
      obtain ⟨pushed, hp⟩ := chain_step_stack env _ top (rest ++ base) hst2
      refine ⟨pushed ++ rest, by rw [hp, List.append_assoc], fun h hh => ?_⟩
      rcases hmem h hh with hin | hhist
      · rcases List.mem_cons.1 hin with heq | hrest
        · subst heq
          exact Or.inr (chain_step_top_entry env _ h (rest ++ base) hst2)
        · exact Or.inl (List.mem_append_right _ hrest)
      · exact Or.inr (chain_step_keeps_isSome env _ h hhist)

/-- C27: when an iteration of `do_chain` defers a connective goal `g`, the stack
afterwards holds the children of `g` in operand order on top of `g` (`g` was pushed
first).  From any state in which goals `above` lie on top of that entry for `g`: as long
as the stack has not been reduced to the entry and what lies below it, the entry is
still in place and every goal of `above` is still above it or has a history entry.  So
when the entry for `g` comes to the top, every child of `g` has been popped and has a
history entry. -/
theorem deferred_goal_after_children (env : Env) (st : State) (g : Handle)
    (stack : List Handle)
    (hs : st._targets_stack = g :: stack)
    (hnone : HandleMap.find? st._inference_history g = none)
    (hfree : (get_free_vars_in_tree g).isEmpty = false)
    (hlogical : getType g ∈ env._logical_link_types)
    (hchild : ∃ h ∈ getOutgoingSet g, HandleMap.count st._inference_history h = 0) :
    (chain_step env st)._targets_stack = (getOutgoingSet g).reverse ++ g :: stack ∧
    (∀ (st2 : State) (above : List Handle), st2._targets_stack = above ++ g :: stack →
      ∀ n, (∀ m, m < n → ((chain_step env)^[m] st2)._targets_stack ≠ g :: stack) →
      ∃ above_n, ((chain_step env)^[n] st2)._targets_stack = above_n ++ g :: stack ∧
        ∀ h ∈ above, h ∈ above_n ∨
          (HandleMap.find? ((chain_step env)^[n] st2)._inference_history h).isSome = true) ∧
    ∀ n, (∀ m, m < n →
        ((chain_step env)^[m] (chain_step env st))._targets_stack ≠ g :: stack) →
      ((chain_step env)^[n] (chain_step env st))._targets_stack = g :: stack →
      ∀ h ∈ getOutgoingSet g,
        (HandleMap.find?
          ((chain_step env)^[n] (chain_step env st))._inference_history h).isSome = true := by
  have hpush : (chain_step env st)._targets_stack = (getOutgoingSet g).reverse ++ g :: stack := by
    unfold chain_step
    rw [hs]
    simp only [do_bc_deferral env { st with _targets_stack := stack } g hnone hfree hlogical
      hchild]
  refine ⟨hpush, fun st2 above h2 n hnot => stack_base_intact env st2 above (g :: stack) h2 n hnot,
    fun n hnot hn h hh => ?_⟩
  obtain ⟨above_n, hst, hmem⟩ :=
    stack_base_intact env (chain_step env st) (getOutgoingSet g).reverse (g :: stack) hpush n hnot
  have hnil : above_n = [] := by
    rw [hst] at hn
    simpa using hn
  rcases hmem h (List.mem_reverse.2 hh) with hin | hhist
  · rw [hnil] at hin
    exact absurd hin (List.not_mem_nil _)
  · exact hhist

theorem deferred_goal_after_children_witness :
    (chain_step
        (kb_env [(InheritanceLink (VariableNode "$x") (ConceptNode "Animal"),
            [InheritanceLink (ConceptNode "Fido") (ConceptNode "Animal")]),
          (InheritanceLink (VariableNode "$y") (ConceptNode "Plant"),
            [InheritanceLink (ConceptNode "Rose") (ConceptNode "Plant")])])
        { fresh_state with
          _targets_stack :=
            [AndLink (InheritanceLink (VariableNode "$x") (ConceptNode "Animal"))
              (InheritanceLink (VariableNode "$y") (ConceptNode "Plant"))] })._targets_stack =
      [InheritanceLink (VariableNode "$y") (ConceptNode "Plant"),
       InheritanceLink (VariableNode "$x") (ConceptNode "Animal"),
       AndLink (InheritanceLink (VariableNode "$x") (ConceptNode "Animal"))
         (InheritanceLink (VariableNode "$y") (ConceptNode "Plant"))] ∧
    ∀ h ∈ getOutgoingSet
        (AndLink (InheritanceLink (VariableNode "$x") (ConceptNode "Animal"))
          (InheritanceLink (VariableNode "$y") (ConceptNode "Plant"))),
      (HandleMap.find?
        ((chain_step
            (kb_env [(InheritanceLink (VariableNode "$x") (ConceptNode "Animal"),
                [InheritanceLink (ConceptNode "Fido") (ConceptNode "Animal")]),
              (InheritanceLink (VariableNode "$y") (ConceptNode "Plant"),
                [InheritanceLink (ConceptNode "Rose") (ConceptNode "Plant")])]))^[2]
          (chain_step
            (kb_env [(InheritanceLink (VariableNode "$x") (ConceptNode "Animal"),
                [InheritanceLink (ConceptNode "Fido") (ConceptNode "Animal")]),
              (InheritanceLink (VariableNode "$y") (ConceptNode "Plant"),
                [InheritanceLink (ConceptNode "Rose") (ConceptNode "Plant")])])
            { fresh_state with
              _targets_stack :=
                [AndLink (InheritanceLink (VariableNode "$x") (ConceptNode "Animal"))
                  (InheritanceLink (VariableNode "$y") (ConceptNode "Plant"))] })
          )._inference_history h).isSome = true :=
  ⟨by decide,
    (deferred_goal_after_children _ _ _ [] rfl (by decide) (by decide) (by decide)
      ⟨InheritanceLink (VariableNode "$x") (ConceptNode "Animal"), by decide, by decide⟩).2.2 2
      (by decide) (by decide)⟩


/-! ## The map of logical links to premises -/

theorem reached_eq (logical : List AType) (h : Handle) :
    reached logical h =
      h :: (if getType h ∈ logical then reached_outgoing logical (getOutgoingSet h) else []) := by
  cases h with
  | node t name => simp [reached, getOutgoingSet, reached_outgoing]
  | link t out => simp [reached, getOutgoingSet, getType]

theorem reached_outgoing_length (logical : List AType) (out : List Handle) :
    (reached_outgoing logical out).length =
      (out.map fun s => (reached logical s).length).sum := by
  induction out with
  | nil => simp [reached_outgoing]
  | cons h out ih => simp [reached_outgoing, ih]

theorem reached_outgoing_count (logical : List AType) (k : Handle) (out : List Handle) :
    (reached_outgoing logical out).count k =
      (out.map fun s => (reached logical s).count k).sum := by
  induction out with
  | nil => simp [reached_outgoing]
  | cons h out ih => simp [reached_outgoing, ih]

theorem visit_premises_spec (lt : Handle → Handle → Bool) (head : Handle)
    (out : List Handle) (m : HandleMap HandleSeq) (stack : List Handle) :
    (visit_premises lt head out m stack).2 = out.reverse ++ stack ∧
    ∀ k,
      ((HandleMap.find? (visit_premises lt head out m stack).1 k).isSome = true ↔
        (HandleMap.find? m k).isSome = true ∨ (k = head ∧ out ≠ [])) ∧
      HandleMap.at (visit_premises lt head out m stack).1 k =
        if k = head then HandleMap.at m head ++ out else HandleMap.at m k := by
  induction out generalizing m stack with
  | nil =>
    refine ⟨rfl, fun k => ⟨by simp [visit_premises], ?_⟩⟩
    by_cases hk : k = head
    · simp [visit_premises, hk]
    · simp [visit_premises, hk]
  | cons h out ih =>
    obtain ⟨ih1, ih2⟩ :=
      ih (HandleMap.set lt m head (HandleMap.at m head ++ [h])) (h :: stack)
    refine ⟨by simp only [visit_premises, ih1, List.reverse_cons, List.append_assoc,
      List.singleton_append], fun k => ?_⟩
    obtain ⟨k1, k2⟩ := ih2 k
    simp only [visit_premises]
    constructor
    · rw [k1, HandleMap.find?_set]
      by_cases hk : k = head
      · simp [hk]
      · simp [hk]
    · rw [k2]
      by_cases hk : k = head
      · simp [hk, HandleMap.at_set]
      · simp [hk, HandleMap.at_set]

theorem visit_total_cons (logical : List AType) (head : Handle) (S : List Handle) :
    visit_total logical (head :: S) =
      1 + (if getType head ∈ logical then
        visit_total logical ((getOutgoingSet head).reverse ++ S)
      else visit_total logical S) := by
  unfold visit_total
  rw [List.map_cons, List.sum_cons, reached_eq]
  by_cases hl : getType head ∈ logical
  · simp only [hl, if_true, List.length_cons, reached_outgoing_length, List.map_append,
      List.map_reverse, List.sum_append, List.sum_reverse]
    omega
  · simp only [hl, if_false, List.length_cons, List.length_nil]

theorem visit_count_cons (logical : List AType) (k head : Handle) (S : List Handle) :
    visit_count logical k (head :: S) =
      (if head = k then 1 else 0) + (if getType head ∈ logical then
        visit_count logical k ((getOutgoingSet head).reverse ++ S)
      else visit_count logical k S) := by
  unfold visit_count
  rw [List.map_cons, List.sum_cons, reached_eq, List.count_cons]
  by_cases hl : getType head ∈ logical
  · simp only [hl, if_true, reached_outgoing_count, List.map_append, List.map_reverse,
      List.sum_append, List.sum_reverse, beq_iff_eq]
    omega
  · simp only [hl, if_false, List.count_nil, beq_iff_eq]
    omega

theorem premises_loop_spec (env : Env) (fuel : Nat) :
    ∀ (S : List Handle) (m : HandleMap HandleSeq),
      visit_total env._logical_link_types S ≤ fuel →
      ∃ m2, premises_loop env fuel S m = some m2 ∧
        ∀ k,
          ((HandleMap.find? m2 k).isSome = true ↔
            (HandleMap.find? m k).isSome = true ∨
              (getType k ∈ env._logical_link_types ∧ getOutgoingSet k ≠ [] ∧
                0 < visit_count env._logical_link_types k S)) ∧
          HandleMap.at m2 k =
            HandleMap.at m k ++
              (if getType k ∈ env._logical_link_types then
                (List.replicate (visit_count env._logical_link_types k S)
                  (getOutgoingSet k)).flatten
              else []) := by
  induction fuel with
  | zero =>
    intro S m h
    cases S with
    | nil => exact ⟨m, by simp [premises_loop], fun k => by simp [visit_count]⟩
    | cons head S =>
      rw [visit_total_cons] at h
      omega
  | succ fuel ih =>
    intro S m h
    cases S with
    | nil => exact ⟨m, by simp [premises_loop], fun k => by simp [visit_count]⟩
    | cons head S =>
      rw [visit_total_cons] at h
      by_cases hl : getType head ∈ env._logical_link_types
      · rw [if_pos hl] at h
        obtain ⟨v1, v2⟩ := visit_premises_spec env.lt head (getOutgoingSet head) m S
        have hloop : premises_loop env (fuel + 1) (head :: S) m =
            premises_loop env fuel
              (visit_premises env.lt head (getOutgoingSet head) m S).2
              (visit_premises env.lt head (getOutgoingSet head) m S).1 := by
          simp [premises_loop, hl]
        obtain ⟨m2, e, p⟩ :=
          ih ((getOutgoingSet head).reverse ++ S)
            (visit_premises env.lt head (getOutgoingSet head) m S).1 (by omega)
        refine ⟨m2, by rw [hloop, v1]; exact e, fun k => ?_⟩
        obtain ⟨p1, p2⟩ := p k
        obtain ⟨k1, k2⟩ := v2 k
        rw [visit_count_cons, if_pos hl]
        constructor
        · rw [p1, k1]
          by_cases hk : k = head
          · subst hk
            simp only [if_true, true_and, hl]
            constructor
            · rintro ((h1 | h1) | ⟨h1, h2⟩)
              · exact Or.inl h1
              · exact Or.inr ⟨h1, by omega⟩
              · exact Or.inr ⟨h1, by omega⟩
            · rintro (h1 | ⟨h1, _⟩)
              · exact Or.inl (Or.inl h1)
              · exact Or.inl (Or.inr h1)
          · have hk2 : ¬ head = k := fun e => hk e.symm
            simp only [hk, hk2, false_and, or_false, if_false, Nat.zero_add]
        · rw [p2, k2]
          by_cases hk : k = head
          · subst hk
            simp only [if_true, hl, Nat.add_comm 1, List.replicate_succ, List.flatten_cons,
              List.append_assoc]
          · have hk2 : ¬ head = k := fun e => hk e.symm
            simp only [hk, hk2, if_false, Nat.zero_add]
      · rw [if_neg hl] at h
        have hloop : premises_loop env (fuel + 1) (head :: S) m =
            premises_loop env fuel S m := by
          simp [premises_loop, hl]
        obtain ⟨m2, e, p⟩ := ih S m (by omega)
        refine ⟨m2, by rw [hloop]; exact e, fun k => ?_⟩
        obtain ⟨p1, p2⟩ := p k
        rw [visit_count_cons, if_neg hl]
        by_cases hkl : getType k ∈ env._logical_link_types
        · have hk2 : ¬ head = k := fun e => hl (e ▸ hkl)
          simp only [hk2, if_false, Nat.zero_add]
          exact ⟨p1, p2⟩
        · simp only [hkl, false_and, or_false, if_false] at p1 p2 ⊢
          exact ⟨p1, p2⟩

/-- C31 (counterexample): for the implicant
`Or(And(P, Q), Not(And(P, Q)))` with `P = Inheritance($x, "Animal")` and
`Q = Inheritance($x, "Plant")`, the connective `And(P, Q)` is reached twice and the map
lists its children twice, `And(P, Q) -> {P, Q, P, Q}`; and for the implicant `And()`
without children the map is empty: the connective at the root is not a key. -/
theorem premises_map_repeats_children :
    (get_logical_link_premises_map (kb_env []) 8
        (OrLink
          (AndLink (InheritanceLink (VariableNode "$x") (ConceptNode "Animal"))
            (InheritanceLink (VariableNode "$x") (ConceptNode "Plant")))
          (NotLink
            (AndLink (InheritanceLink (VariableNode "$x") (ConceptNode "Animal"))
              (InheritanceLink (VariableNode "$x") (ConceptNode "Plant")))))).map
      (fun m =>
        HandleMap.find? m
          (AndLink (InheritanceLink (VariableNode "$x") (ConceptNode "Animal"))
            (InheritanceLink (VariableNode "$x") (ConceptNode "Plant")))) =
      some (some
        [InheritanceLink (VariableNode "$x") (ConceptNode "Animal"),
         InheritanceLink (VariableNode "$x") (ConceptNode "Plant"),
         InheritanceLink (VariableNode "$x") (ConceptNode "Animal"),
         InheritanceLink (VariableNode "$x") (ConceptNode "Plant")]) ∧
    get_logical_link_premises_map (kb_env []) 8 (Atom.link AType.AND_LINK []) = some [] := by
  constructor <;> decide

/-- C31 (amended): for every implicant, with enough iterations
`get_logical_link_premises_map` returns a map whose keys are exactly the logical
connectives with at least one child that are reached from the root through logical
connectives only (no atom that is not a logical connective is a key), and the value of
a key that is reached once is exactly that connective's ordered child list. -/
theorem premises_map_spec (env : Env) (himplicant : Handle) :
    ∃ fuel0, ∀ fuel, fuel0 ≤ fuel →
      ∃ m, get_logical_link_premises_map env fuel himplicant = some m ∧
        (∀ k, (HandleMap.find? m k).isSome = true ↔
          k ∈ reached env._logical_link_types himplicant ∧
            getType k ∈ env._logical_link_types ∧ getOutgoingSet k ≠ []) ∧
        ∀ k, getType k ∈ env._logical_link_types → getOutgoingSet k ≠ [] →
          (reached env._logical_link_types himplicant).count k = 1 →
          HandleMap.find? m k = some (getOutgoingSet k) := by
  refine ⟨visit_total env._logical_link_types [himplicant], fun fuel hf => ?_⟩
  obtain ⟨m, e, p⟩ := premises_loop_spec env fuel [himplicant] [] hf
  have hc : ∀ k, visit_count env._logical_link_types k [himplicant] =
      (reached env._logical_link_types himplicant).count k := by
    intro k
    simp [visit_count]
  refine ⟨m, e, fun k => ?_, fun k hl hne h1 => ?_⟩
  · rw [(p k).1, hc k, List.count_pos_iff]
    simp only [HandleMap.find?, Option.isSome_none, Bool.false_eq_true, false_or]
    constructor
    · rintro ⟨h1, h2, h3⟩; exact ⟨h3, h1, h2⟩
    · rintro ⟨h1, h2, h3⟩; exact ⟨h2, h3, h1⟩
  · have hsome : (HandleMap.find? m k).isSome = true := by
      rw [(p k).1, hc k, h1]
      exact Or.inr ⟨hl, hne, Nat.one_pos⟩
    obtain ⟨x, hx⟩ := Option.isSome_iff_exists.1 hsome
    have hat := (p k).2
    rw [hc k, h1] at hat
    simp only [HandleMap.at, hx, Option.getD_some, HandleMap.find?, Option.getD_none, hl,
      if_true, List.replicate_one, List.flatten_cons, List.flatten_nil, List.append_nil,
      List.nil_append] at hat
    rw [hx, hat]

theorem premises_map_spec_witness :
    get_logical_link_premises_map (kb_env []) 5 example_implicant =
      some
        [(example_implicant,
            [InheritanceLink (VariableNode "$x") (ConceptNode "Animal"),
             AndLink
               (EvaluationLink (PredicateNode "eats")
                 (ListLink (VariableNode "$x") (ConceptNode "leaves")))
               (EvaluationLink (PredicateNode "eats")
                 (ListLink (VariableNode "$x") (ConceptNode "flesh")))]),
         (AndLink
            (EvaluationLink (PredicateNode "eats")
              (ListLink (VariableNode "$x") (ConceptNode "leaves")))
            (EvaluationLink (PredicateNode "eats")
              (ListLink (VariableNode "$x") (ConceptNode "flesh"))),
            [EvaluationLink (PredicateNode "eats")
               (ListLink (VariableNode "$x") (ConceptNode "leaves")),
             EvaluationLink (PredicateNode "eats")
               (ListLink (VariableNode "$x") (ConceptNode "flesh"))])] ∧
    ∃ fuel0, ∀ fuel, fuel0 ≤ fuel →
      ∃ m, get_logical_link_premises_map (kb_env []) fuel example_implicant = some m ∧
        (∀ k, (HandleMap.find? m k).isSome = true ↔
          k ∈ reached (kb_env [])._logical_link_types example_implicant ∧
            getType k ∈ (kb_env [])._logical_link_types ∧ getOutgoingSet k ≠ []) ∧
        ∀ k, getType k ∈ (kb_env [])._logical_link_types → getOutgoingSet k ≠ [] →
          (reached (kb_env [])._logical_link_types example_implicant).count k = 1 →
          HandleMap.find? m k = some (getOutgoingSet k) :=
  ⟨by decide, premises_map_spec (kb_env []) example_implicant⟩

end BackwardChainer
